import Mathlib

/-!
Verification development for the Universal Timer block-tree engine.

The definitions below are a shallow embedding of the TypeScript sources:

* `src/utils/time.ts` — `unitToMs`, `msUntilTime`, `sanitizeTimeInput`.
  JavaScript numbers are modelled as `Int` (all values reached in the
  engine paths under study are integral); a JavaScript `NaN` arising from
  `parseInt` on a malformed string is modelled by `Option Int` with `none`
  for NaN, and the comparison semantics `NaN <= 0 = false` is modelled by
  `jsLeZero`.
* `src/components/editor/blockTree.ts` — the immutable block-tree algebra
  (`findBlockById`, `findAndRemove`, `blockContainsId`, `insertRelative`,
  `cloneBlock`, `moveBlock`).  The `for`-loop with a mutable `found`
  accumulator in `findAndRemove` is transcribed as the tail-threaded
  helper `farGo`.
* `src/utils/blockExecutors.ts` — the tick loops of `runWait`,
  `runWaitUntil` and the cycle loop of `runNotifyUntil`.  Each executor
  interacts with its surroundings only through `Date.now()`, the abort /
  pause flags of the runner context, and awaited sub-operations; one loop
  iteration's worth of those observations is packaged as one environment
  event (`TickEv`, `NuEv`), and the loop is the obvious fold over the
  event list (an exhausted event list yields an "out of fuel" outcome,
  the code itself would simply keep looping).  Externally visible calls
  (`updateState`, `stopAudio`, `playSoundOnce`, running nested children,
  `sleep`) are recorded in an effect trace (`NuEffect`); `playSoundOnce`
  is representable as `NuEffect.play` and is never emitted by
  `runNotifyUntil`, exactly as in the source.
* `src/hooks/useMultiTimerRunner.ts` — the per-timer supervisor
  (`stopBlocks`, `pauseBlocks`, `resumeBlocks`, `startBlocks`, `start`)
  as pure transformers of a `Sup` state, with JavaScript object maps
  modelled as association lists (`mlook` / `mset`).

Counting functions (`countSteps`, `occs`, `occAll`) are the measurement
apparatus for the tree-conservation and uniqueness statements; the data
model's documented invariant "identifiers are unique within one timer's
tree" is rendered as `occAll bs i ≤ 1`.
-/

namespace UTimer

/-- `TimeUnit` from `src/types.ts`. -/
inductive TimeUnit where
  | seconds | minutes | hours | days
deriving DecidableEq

/-- `AmPm` from `src/types.ts`. -/
inductive AmPm where
  | AM | PM
deriving DecidableEq

/-- Sound source selector from `src/types.ts`. -/
inductive SoundType where
  | defaultSound | url | upload | custom
deriving DecidableEq

/-- `unitToMs` from `src/utils/time.ts` (the `default` switch arm is
unreachable because `TimeUnit` is exhaustive, as in the TS union type). -/
def unitToMs (amount : Int) (unit : TimeUnit) : Int :=
  match unit with
  | .seconds => amount * 1000
  | .minutes => amount * 60 * 1000
  | .hours => amount * 60 * 60 * 1000
  | .days => amount * 24 * 60 * 60 * 1000

/-- Value of a maximal leading run of decimal digits, `none` when there is
no leading digit (JavaScript `parseInt` returns `NaN` then). -/
def digitsVal (cs : List Char) : Option Nat :=
  let ds := cs.takeWhile Char.isDigit
  if ds.isEmpty then none
  else some (ds.foldl (fun a c => 10 * a + (c.toNat - 48)) 0)

/-- JavaScript `parseInt(s, 10)` on a character list: skip leading
whitespace, optional sign, then the longest digit run; `NaN` (here
`none`) when no digits follow. -/
def parseIntJS (cs : List Char) : Option Int :=
  match cs.dropWhile Char.isWhitespace with
  | '-' :: rest => (digitsVal rest).map (fun n => -(n : Int))
  | '+' :: rest => (digitsVal rest).map (fun n => (n : Int))
  | rest => (digitsVal rest).map (fun n => (n : Int))

/-- `msUntilTime` from `src/utils/time.ts`.  `time.split(":")` is modelled
by splitting the character list at the first two `':'` occurrences (only
the first two components are read); `mmStr` is the second component when
present, with `mmStr || "0"` giving `"0"` for an absent or empty one.
The ambient clock is passed in as `now` (current instant, epoch ms) and
`dayStart` (today's midnight, epoch ms); `target.setHours(h, m, 0, 0)` is
`dayStart + h*3600000 + m*60000` (JavaScript rolls overflowing fields
into the date, which this absolute form reproduces), and
`target.setDate(target.getDate() + 1)` adds one day.  A `NaN` hour or
minute makes the target date invalid: every comparison on it is false, so
the day is not advanced and the result is `NaN`, i.e. `none`. -/
def msUntilTime (time : String) (ampm : AmPm) (now dayStart : Int) : Option Int :=
  let cs := time.toList
  let hhStr := cs.takeWhile (fun c => c ≠ ':')
  let rest := cs.dropWhile (fun c => c ≠ ':')
  let mmStr := match rest with
    | [] => ['0']
    | _ :: r =>
      let second := r.takeWhile (fun c => c ≠ ':')
      if second = [] then ['0'] else second
  match parseIntJS hhStr, parseIntJS mmStr with
  | some h0, some minute =>
    let hour1 := if ampm = .PM ∧ h0 ≠ 12 then h0 + 12 else h0
    let hour := if ampm = .AM ∧ hour1 = 12 then 0 else hour1
    let target := dayStart + hour * 3600000 + minute * 60000
    some (if target ≤ now then target + 86400000 - now else target - now)
  | _, _ => none

/-- Numeric value of a digit character. -/
def digitNat (c : Char) : Nat := c.toNat - 48

/-- Full-match semantics of the regex `^(\d{1,2}):(\d{2})$` used by
`sanitizeTimeInput`, returning the two captured numbers. -/
def parseHMM : List Char → Option (Nat × Nat)
  | [a, ':', b, c] =>
    if a.isDigit ∧ b.isDigit ∧ c.isDigit then
      some (digitNat a, 10 * digitNat b + digitNat c)
    else none
  | [a1, a2, ':', b, c] =>
    if a1.isDigit ∧ a2.isDigit ∧ b.isDigit ∧ c.isDigit then
      some (10 * digitNat a1 + digitNat a2, 10 * digitNat b + digitNat c)
    else none
  | _ => none

/-- `minutes.toString().padStart(2, "0")`. -/
def pad2 (n : Nat) : String := if n < 10 then "0" ++ toString n else toString n

/-- JavaScript `value.trim()`: strip whitespace from both ends. -/
def jsTrim (s : String) : List Char :=
  ((s.toList.dropWhile Char.isWhitespace).reverse.dropWhile Char.isWhitespace).reverse

/-- `sanitizeTimeInput` from `src/utils/time.ts`.  The captures of the
regex are digit strings, so the `Number.isNaN` guards of the source are
vacuous; `minutes < 0` is vacuous on `Nat`. -/
def sanitizeTimeInput (value fallback : String) : String :=
  match parseHMM (jsTrim value) with
  | none => fallback
  | some (hours, minutes) =>
    if hours < 1 ∨ 12 < hours then fallback
    else if 59 < minutes then fallback
    else toString hours ++ ":" ++ pad2 minutes

/-- The step/block tagged union from `src/types.ts`.  Optional fields are
`Option`s; the fractional `interval` field of `NotifyUntilBlock` (seconds)
is carried in tenths of a second so that it stays integral — it is never
read by any embedded operation, mirroring `runNotifyUntil`, which ignores
it. -/
inductive Block where
  | loop (id : String) (repeatCount : Int) (children : List Block)
  | wait (id : String) (amount : Option Int) (unit : TimeUnit)
  | waitUntil (id : String) (time : String) (ampm : AmPm)
  | playSound (id : String) (soundType : SoundType) (label : String) (customUrl : Option String)
  | playSoundUntil (id : String) (soundType : SoundType) (label : String) (customUrl : Option String)
  | notify (id : String) (title : String) (body : Option String)
  | notifyUntil (id : String) (title : String) (body : Option String) (label : Option String)
      (timeoutMs : Option Int) (soundType : Option SoundType) (customUrl : Option String)
      (intervalTenths : Option Int) (children : Option (List Block))

/-- The `id` every block kind carries. -/
def Block.id : Block → String
  | .loop i _ _ => i
  | .wait i _ _ => i
  | .waitUntil i _ _ => i
  | .playSound i _ _ _ => i
  | .playSoundUntil i _ _ _ => i
  | .notify i _ _ => i
  | .notifyUntil i _ _ _ _ _ _ _ _ => i

/-- `block.type === "loop"`. -/
def Block.isLoop : Block → Bool
  | .loop _ _ _ => true
  | _ => false

/-- The children a `loop`-only traversal of `blockTree.ts` descends into:
`loop` children; every other kind (including `notifyUntil`) is treated as
a leaf there. -/
def Block.loopKids : Block → List Block
  | .loop _ _ ch => ch
  | _ => []

/-- All children a block holds in the data model: `loop` children and
`notifyUntil` children (the only kinds with a `children` field). -/
def Block.allKids : Block → List Block
  | .loop _ _ ch => ch
  | .notifyUntil _ _ _ _ _ _ _ _ (some ch) => ch
  | _ => []

/-- Total step count: every node in every container, recursively —
`loop` children and `notifyUntil` children both counted. -/
def countSteps : List Block → Nat
  | [] => 0
  | .loop _ _ ch :: bs => 1 + countSteps ch + countSteps bs
  | .notifyUntil _ _ _ _ _ _ _ _ (some ch) :: bs => 1 + countSteps ch + countSteps bs
  | _ :: bs => 1 + countSteps bs

/-- Number of positions reachable by the `loop`-only traversal (the one
all of `blockTree.ts` uses) whose block has the given id and satisfies
`f`. -/
def occs (f : Block → Bool) : List Block → String → Nat
  | [], _ => 0
  | .loop lid r ch :: bs, i =>
      (if lid = i ∧ f (.loop lid r ch) then 1 else 0) + occs f ch i + occs f bs i
  | b :: bs, i => (if b.id = i ∧ f b then 1 else 0) + occs f bs i

/-- Loop-reachable occurrences of an id. -/
def occ (bs : List Block) (i : String) : Nat := occs (fun _ => true) bs i

/-- Loop-reachable occurrences of an id at a `loop`-typed block. -/
def occLoop (bs : List Block) (i : String) : Nat := occs Block.isLoop bs i

/-- Occurrences of an id anywhere in the tree, descending into `loop`
children and `notifyUntil` children alike. -/
def occAll : List Block → String → Nat
  | [], _ => 0
  | .loop lid _ ch :: bs, i =>
      (if lid = i then 1 else 0) + occAll ch i + occAll bs i
  | .notifyUntil nid _ _ _ _ _ _ _ (some ch) :: bs, i =>
      (if nid = i then 1 else 0) + occAll ch i + occAll bs i
  | b :: bs, i => (if b.id = i then 1 else 0) + occAll bs i

/-- Occurrences of an id strictly inside the subtree rooted at a block —
"the id lies inside the subtree rooted at this block" is `0 < kidsAll b i`. -/
def kidsAll (b : Block) (i : String) : Nat := occAll b.allKids i

mutual
/-- `cloneBlock` from `blockTree.ts`: `loop` blocks are rebuilt with
cloned children, every other kind is shallow-copied (value identity
here). -/
def cloneBlock : Block → Block
  | .loop lid r ch => .loop lid r (cloneBlocks ch)
  | b => b
def cloneBlocks : List Block → List Block
  | [] => []
  | b :: bs => cloneBlock b :: cloneBlocks bs
end

/-- `findBlockById` from `blockTree.ts`: first match wins, recursing into
`loop` children only. -/
def findBlockById : List Block → String → Option Block
  | [], _ => none
  | b :: bs, i =>
    if b.id = i then some b
    else match b with
      | .loop _ _ ch =>
        match findBlockById ch i with
        | some f => some f
        | none => findBlockById bs i
      | _ => findBlockById bs i

/-- The `for`-loop body of `findAndRemove`, with the mutable `found`
variable threaded through: a top-level id match records the block
(overwriting, as `found = b` does) and drops it; a `loop` is searched
recursively (`if (result.found && !found) found = result.found`) and
rebuilt with the pruned children; other blocks are kept. -/
def farGo (i : String) : List Block → Option Block → Option Block × List Block
  | [], found => (found, [])
  | b :: bs, found =>
    if b.id = i then farGo i bs (some b)
    else match b with
      | .loop lid r ch =>
        let res := farGo i ch none
        let found' := match found with
          | none => res.1
          | some f => some f
        let rest := farGo i bs found'
        (rest.1, .loop lid r res.2 :: rest.2)
      | _ =>
        let rest := farGo i bs found
        (rest.1, b :: rest.2)

/-- `findAndRemove` from `blockTree.ts`. -/
def findAndRemove (bs : List Block) (i : String) : Option Block × List Block :=
  farGo i bs none

mutual
/-- `blockContainsId` from `blockTree.ts`: false for every non-`loop`
block. -/
def blockContainsId : Block → String → Bool
  | .loop _ _ ch, i => blockChildrenContain ch i
  | _, _ => false
def blockChildrenContain : List Block → String → Bool
  | [], _ => false
  | c :: cs, i => c.id = i || (c.isLoop && blockContainsId c i) || blockChildrenContain cs i
end

/-- The three insert positions of the editor. -/
inductive InsertPosition where
  | before | after | inside
deriving DecidableEq

/-- `insertRelative` from `blockTree.ts`: at a matching id the new block
is placed before/after it, or appended to its children when the position
is `inside` and the target is a `loop` (otherwise the target is kept and
the new block is dropped at this site); non-matching `loop`s recurse. -/
def insertRelative : List Block → String → Block → InsertPosition → List Block
  | [], _, _, _ => []
  | b :: bs, t, nb, pos =>
    if b.id = t then
      (match pos, b with
        | .before, _ => [nb, b]
        | .after, _ => [b, nb]
        | .inside, .loop lid r ch => [.loop lid r (ch ++ [nb])]
        | .inside, _ => [b]) ++ insertRelative bs t nb pos
    else match b with
      | .loop lid r ch =>
        .loop lid r (insertRelative ch t nb pos) :: insertRelative bs t nb pos
      | _ => b :: insertRelative bs t nb pos

/-- `moveBlock` from `blockTree.ts`. -/
def moveBlock (blocks : List Block) (movingId targetId : String)
    (pos : InsertPosition) : List Block :=
  if movingId = targetId then blocks
  else match findBlockById blocks targetId with
    | none => blocks
    | some _ =>
      let fr := findAndRemove blocks movingId
      match fr.1 with
      | none => blocks
      | some movingBlock =>
        if movingBlock.isLoop ∧ blockContainsId movingBlock targetId then blocks
        else insertRelative fr.2 targetId (cloneBlock movingBlock) pos

/-- Specification of a successful `findAndRemove` on a tree holding
exactly one loop-reachable occurrence of `i`: the removed block is the
one `findBlockById` returns, it carries the searched id, and the
remainder tree is the original minus the removed subtree, measured by
total step count and by the loop-reachable occurrence counts of every
id. -/
def FarSpec (i : String) (bs : List Block) : Prop :=
  ∃ m w, farGo i bs none = (some m, w) ∧ findBlockById bs i = some m ∧ m.id = i ∧
    countSteps w + countSteps [m] = countSteps bs ∧
    (∀ j, occ w j + occ [m] j = occ bs j) ∧
    (∀ j, occLoop w j + occLoop [m] j = occLoop bs j)

/-- One top-of-loop observation of the `runWait` / `runWaitUntil` tick
loop: the abort flag was set, the pause flag was set (and the pause ended
at `resumeAt`), or the loop ran a tick with `Date.now() = now`. -/
inductive TickEv where
  | tick (now : Int)
  | pauseTick (resumeAt : Int)
  | abortTick

/-- Result of the tick loop: broke out with the remaining time used up,
exited on abort, or consumed the whole event list while still counting
down (the source would keep looping; the final counter and time anchor
are reported). -/
inductive TickOutcome where
  | completed
  | aborted
  | fuelOut (remaining : Option Int) (lastAnchor : Int)
deriving DecidableEq

/-- `x <= 0` on a JavaScript number that may be `NaN`: false for `NaN`. -/
def jsLeZero : Option Int → Bool
  | none => false
  | some v => v ≤ 0

/-- Subtraction on a JavaScript number that may be `NaN`. -/
def jsSub (x : Option Int) (d : Int) : Option Int := x.map (fun v => v - d)

/-- The shared tick loop of `runWait` and `runWaitUntil`
(`src/utils/blockExecutors.ts`): on pause, suspend and reset the `last`
anchor to the resume instant; on a tick, subtract `now - last` from the
remaining counter and break when it drops to `0` or below. -/
def waitTickLoop : List TickEv → Option Int → Int → TickOutcome
  | [], r, l => .fuelOut r l
  | .abortTick :: _, _, _ => .aborted
  | .pauseTick t :: es, r, _ => waitTickLoop es r t
  | .tick n :: es, r, l =>
    let r' := jsSub r (n - l)
    if jsLeZero r' then .completed else waitTickLoop es r' n

/-- The total wait `runWait` computes:
`unitToMs(Math.max(0, block.amount || 0), block.unit)`. -/
def runWaitTotalMs (amount : Option Int) (unit : TimeUnit) : Int :=
  unitToMs (max 0 (amount.getD 0)) unit

/-- `runWait` from `src/utils/blockExecutors.ts` (the progress reports and
the `≤ 250 ms` sleeps between ticks are absorbed into the environment's
choice of tick instants). -/
def runWait (amount : Option Int) (unit : TimeUnit) (es : List TickEv)
    (startNow : Int) : TickOutcome :=
  let remaining := runWaitTotalMs amount unit
  if remaining ≤ 0 then .completed
  else waitTickLoop es (some remaining) startNow

/-- The argument `runWaitUntil` passes to `msUntilTime`:
`block.time || "07:00"` — the fallback applies only to the empty string. -/
def waitUntilArg (time : String) : String := if time = "" then "07:00" else time

/-- `runWaitUntil` from `src/utils/blockExecutors.ts`. -/
def runWaitUntil (time : String) (ampm : AmPm) (now dayStart : Int)
    (es : List TickEv) : TickOutcome :=
  let remaining := msUntilTime (waitUntilArg time) ampm now dayStart
  if jsLeZero remaining then .completed
  else waitTickLoop es remaining now

/-- Unpaused wall-clock time a tick-loop environment charges against the
counter, starting from anchor `l`: ticks contribute `now - last`, pauses
only move the anchor. -/
def unpausedElapsed : List TickEv → Int → Int
  | [], _ => 0
  | .abortTick :: _, _ => 0
  | .pauseTick t :: es, _ => unpausedElapsed es t
  | .tick n :: es, l => (n - l) + unpausedElapsed es n

/-- Environments that never signal abort. -/
def noAbortEnv (es : List TickEv) : Bool :=
  es.all (fun e => match e with | .abortTick => false | _ => true)

/-- One iteration's observations for the `runNotifyUntil` cycle loop:
`abortNow` / `dismissedNow` are the flags read by the `while` condition;
a `pauseEv` iteration suspends and resumes at `resumeAt`; a `cycleEv`
iteration runs one activity cycle ending at `Date.now() = cycleEnd`, with
`abortAfter` / `dismissedAfter` the flags read right after the cycle. -/
inductive NuEv where
  | pauseEv (abortNow dismissedNow : Bool) (resumeAt : Int)
  | cycleEv (abortNow dismissedNow : Bool) (cycleEnd : Int) (abortAfter dismissedAfter : Bool)

/-- Why (or whether) the `runNotifyUntil` loop finished: `moreWork` means
the event list was exhausted with the loop still going (remaining
timeout and time anchor reported). -/
inductive NuOutcome where
  | aborted
  | dismissed
  | timedOut
  | moreWork (remaining lastAnchor : Int)
deriving DecidableEq

/-- Externally visible actions of `runNotifyUntil`, in order:
`updateState(id, v)`, the notification send, one execution of the nested
children, a `sleep(ms)`, `ctx.stopAudio()`, and `ctx.playSoundOnce(url)`
(the last is in the context's vocabulary but never invoked by
`runNotifyUntil`). -/
inductive NuEffect where
  | update (blockId : String) (v : Option Int)
  | notifSent
  | runChildren (children : List Block)
  | sleepE (ms : Int)
  | stopAudioE
  | play (url : String)

/-- The body of one activity cycle: run the children once when there are
any, otherwise `await sleep(200)`. -/
def cycleEffects (children : List Block) : List NuEffect :=
  if children.isEmpty then [.sleepE 200] else [.runChildren children]

/-- Flag read by `!ctx.abort()` at the top of the loop. -/
def NuEv.abortNow : NuEv → Bool
  | .pauseEv a _ _ => a
  | .cycleEv a _ _ _ _ => a

/-- Flag read by `!userDismissed` at the top of the loop. -/
def NuEv.dismissedNow : NuEv → Bool
  | .pauseEv _ d _ => d
  | .cycleEv _ d _ _ _ => d

/-- The `while` loop of `runNotifyUntil`: check abort, dismissal and the
remaining timeout; suspend on pause resetting the `last` anchor; otherwise
run one cycle, break if abort/dismissal happened during it, subtract the
wall-clock time the cycle consumed, break on timeout, and report the
clamped remaining time. -/
def nuLoop (blockId : String) (children : List Block) :
    List NuEv → Int → Int → NuOutcome × List NuEffect
  | [], r, l => (.moreWork r l, [])
  | e :: es, r, l =>
    if e.abortNow then (.aborted, [])
    else if e.dismissedNow then (.dismissed, [])
    else if r ≤ 0 then (.timedOut, [])
    else match e with
      | .pauseEv _ _ t => nuLoop blockId children es r t
      | .cycleEv _ _ cEnd a2 d2 =>
        let effs := cycleEffects children
        if a2 then (.aborted, effs)
        else if d2 then (.dismissed, effs)
        else
          let r' := r - (cEnd - l)
          if r' ≤ 0 then (.timedOut, effs)
          else
            let rest := nuLoop blockId children es r' cEnd
            (rest.1, effs ++ .update blockId (some (max 0 r')) :: rest.2)

/-- `runNotifyUntil` from `src/utils/blockExecutors.ts`: default the
timeout to `10000`, report it, send the notification, run the cycle loop,
and on every exit clear the reported progress and stop the audio. -/
def runNotifyUntil (blockId : String) (timeoutMs : Option Int)
    (children : Option (List Block)) (es : List NuEv) (startNow : Int) :
    NuOutcome × List NuEffect :=
  let r0 := timeoutMs.getD 10000
  let res := nuLoop blockId (children.getD []) es r0 startNow
  (res.1,
    .update blockId (some r0) :: .notifSent ::
      (res.2 ++ match res.1 with
        | .moreWork _ _ => []
        | _ => [.update blockId none, .stopAudioE]))

/-- Unpaused wall-clock time an environment charges against the
`runNotifyUntil` timeout from anchor `l`. -/
def nuElapsed : List NuEv → Int → Int
  | [], _ => 0
  | .pauseEv _ _ t :: es, _ => nuElapsed es t
  | .cycleEv _ _ cEnd _ _ :: es, l => (cEnd - l) + nuElapsed es cEnd

/-- All four flags of an event are false. -/
def NuEv.cleanFlags : NuEv → Bool
  | .pauseEv a d _ => !a && !d
  | .cycleEv a d _ a2 d2 => !a && !d && !a2 && !d2

/-- Environments that never signal abort or dismissal. -/
def cleanNuEnv (es : List NuEv) : Bool := es.all NuEv.cleanFlags

/-- `TimerMode` from `src/types.ts`. -/
inductive TimerMode where
  | alarm | stopwatch | simpleStopwatch
deriving DecidableEq

/-- The slice of a `Timer` record the supervisor reads. -/
structure TimerRec where
  id : String
  blocks : List Block
  mode : Option TimerMode

/-- One per-timer control token of `useMultiTimerRunner.ts`
(`{ abort, paused, resumeResolvers }`); the resolver array is tracked by
its length. -/
structure Control where
  abort : Bool
  paused : Bool
  waiters : Nat
deriving DecidableEq

/-- One `RunnerState` entry (`{ isRunning, activeBlockId, remainingMs }`). -/
structure RunState where
  isRunning : Bool
  activeBlockId : Option String
  remainingMs : Option Int
deriving DecidableEq

/-- One `StopwatchState` entry. -/
structure StopwatchState where
  elapsedMs : Int
  isRunning : Bool
  startedAt : Option Int
deriving DecidableEq

/-- The supervisor's mutable state: `controlRefs.current`, `runningMap`
and `stopwatchMap`, each a string-keyed object. -/
structure Sup where
  controls : List (String × Control)
  runningMap : List (String × RunState)
  stopwatchMap : List (String × StopwatchState)
deriving DecidableEq

/-- Externally visible actions of the supervisor's synchronous paths. -/
inductive SupEffect where
  | stopAudioE
  | releaseWaiters (n : Nat)
  | beganRun (timerId : String) (blocks : List Block)

/-- Which branch a `start` call took. -/
inductive StartAction where
  | stopwatchStart | resumedRun | freshRun | noRun
deriving DecidableEq

/-- Object property read `m[k]`. -/
def mlook (k : String) : List (String × α) → Option α
  | [] => none
  | (k', v) :: rest => if k' = k then some v else mlook k rest

/-- Object property write `m[k] = v`. -/
def mset (k : String) (v : α) : List (String × α) → List (String × α)
  | [] => [(k, v)]
  | (k', v') :: rest => if k' = k then (k, v) :: rest else (k', v') :: mset k v rest

/-- The token `getControl` creates on demand. -/
def defaultControl : Control := ⟨false, false, 0⟩

/-- `getControl`: return the timer's token, creating it if absent. -/
def getControl (tid : String) (s : Sup) : Control × Sup :=
  match mlook tid s.controls with
  | some c => (c, s)
  | none => (defaultControl, { s with controls := mset tid defaultControl s.controls })

/-- `settlePauseWaiters`: resolve every pending `awaitResume` waiter and
clear the list. -/
def settlePauseWaiters (tid : String) (s : Sup) : Sup × List SupEffect :=
  match mlook tid s.controls with
  | none => (s, [])
  | some c =>
    ({ s with controls := mset tid { c with waiters := 0 } s.controls },
      [.releaseWaiters c.waiters])

/-- `stopBlocks`: set abort, clear pause, release waiters, stop audio,
reset the reported state. -/
def stopBlocks (tid : String) (s : Sup) : Sup × List SupEffect :=
  let r1 :=
    match mlook tid s.controls with
    | none => (s, ([] : List SupEffect))
    | some c =>
      settlePauseWaiters tid
        { s with controls := mset tid { c with abort := true, paused := false } s.controls }
  let s2 := { r1.1 with runningMap := mset tid ⟨false, none, none⟩ r1.1.runningMap }
  (s2, r1.2 ++ [.stopAudioE])

/-- `pauseBlocks`: set the pause flag (unless absent or aborted), stop
audio, and mark the reported state not running when an entry exists. -/
def pauseBlocks (tid : String) (s : Sup) : Sup × List SupEffect :=
  match mlook tid s.controls with
  | none => (s, [])
  | some c =>
    if c.abort then (s, [])
    else
      let s1 := { s with controls := mset tid { c with paused := true } s.controls }
      let s2 :=
        match mlook tid s1.runningMap with
        | none => s1
        | some rs => { s1 with runningMap := mset tid { rs with isRunning := false } s1.runningMap }
      (s2, [.stopAudioE])

/-- `resumeBlocks`: when a paused, non-aborted token exists, clear the
pause flag, release every waiter, and mark the reported state running
when an entry exists. -/
def resumeBlocks (tid : String) (s : Sup) : Sup × List SupEffect :=
  match mlook tid s.controls with
  | none => (s, [])
  | some c =>
    if c.abort ∨ ¬c.paused then (s, [])
    else
      let s1 := { s with controls := mset tid { c with paused := false } s.controls }
      let r2 := settlePauseWaiters tid s1
      let s3 :=
        match mlook tid r2.1.runningMap with
        | none => r2.1
        | some rs => { r2.1 with runningMap := mset tid { rs with isRunning := true } r2.1.runningMap }
      (s3, r2.2)

/-- `getStopwatchElapsed` (the truthiness test on `startedAt` is modelled
as presence). -/
def getStopwatchElapsed (st : Option StopwatchState) (now : Int) : Int :=
  match st with
  | none => 0
  | some state =>
    if state.isRunning ∧ state.startedAt.isSome then
      state.elapsedMs + (now - state.startedAt.getD 0)
    else state.elapsedMs

/-- `startStopwatch`. -/
def startStopwatch (t : TimerRec) (reset : Bool) (now : Int) (s : Sup) : Sup :=
  let current := mlook t.id s.stopwatchMap
  let baseElapsed := if reset then 0 else getStopwatchElapsed current now
  { s with stopwatchMap := mset t.id ⟨baseElapsed, true, some now⟩ s.stopwatchMap }

/-- The synchronous prefix of `startBlocks`: bail out on an empty block
list, otherwise stop any previous run, reset the token, release waiters,
mark the timer running and launch the interpreter over the timer's
blocks. -/
def startBlocks (t : TimerRec) (s : Sup) : Sup × List SupEffect × StartAction :=
  if t.blocks.isEmpty then (s, [], .noRun)
  else
    let r1 := stopBlocks t.id s
    let g := getControl t.id r1.1
    let s3 := { g.2 with controls := mset t.id { g.1 with abort := false, paused := false } g.2.controls }
    let r4 := settlePauseWaiters t.id s3
    let s5 := { r4.1 with runningMap := mset t.id ⟨true, none, none⟩ r4.1.runningMap }
    (s5, r1.2 ++ r4.2 ++ [.beganRun t.id t.blocks], .freshRun)

/-- `start` from `useMultiTimerRunner.ts`: stopwatch timers go to the
stopwatch path; a paused, non-aborted run is resumed in place; otherwise
`startBlocks` runs. -/
def start (t : TimerRec) (reset : Bool) (now : Int) (s : Sup) :
    Sup × List SupEffect × StartAction :=
  if t.mode = some .simpleStopwatch then
    (startStopwatch t reset now s, [], .stopwatchStart)
  else
    match mlook t.id s.controls with
    | some c =>
      if c.paused ∧ ¬c.abort then
        let r := resumeBlocks t.id s
        (r.1, r.2, .resumedRun)
      else startBlocks t s
    | none => startBlocks t s

/-! Basic lemmas about the tree traversals. -/

theorem blockListInd (P : List Block → Prop) (hnil : P [])
    (hcons : ∀ b bs, P b.loopKids → P b.allKids → P bs → P (b :: bs)) :
    ∀ bs, P bs
  | [] => hnil
  | .loop lid r ch :: bs =>
      hcons (.loop lid r ch) bs (blockListInd P hnil hcons ch)
        (blockListInd P hnil hcons ch) (blockListInd P hnil hcons bs)
  | .wait a b c :: bs => hcons (.wait a b c) bs hnil hnil (blockListInd P hnil hcons bs)
  | .waitUntil a b c :: bs => hcons (.waitUntil a b c) bs hnil hnil (blockListInd P hnil hcons bs)
  | .playSound a b c d :: bs =>
      hcons (.playSound a b c d) bs hnil hnil (blockListInd P hnil hcons bs)
  | .playSoundUntil a b c d :: bs =>
      hcons (.playSoundUntil a b c d) bs hnil hnil (blockListInd P hnil hcons bs)
  | .notify a b c :: bs => hcons (.notify a b c) bs hnil hnil (blockListInd P hnil hcons bs)
  | .notifyUntil a b c d e f g h (some ch) :: bs =>
      hcons (.notifyUntil a b c d e f g h (some ch)) bs hnil
        (blockListInd P hnil hcons ch) (blockListInd P hnil hcons bs)
  | .notifyUntil a b c d e f g h none :: bs =>
      hcons (.notifyUntil a b c d e f g h none) bs hnil hnil (blockListInd P hnil hcons bs)

theorem occs_nil (f : Block → Bool) (i : String) : occs f [] i = 0 := by
  simp [occs]

theorem occs_cons (f : Block → Bool) (b : Block) (bs : List Block) (i : String) :
    occs f (b :: bs) i =
      (if b.id = i ∧ f b then 1 else 0) + occs f b.loopKids i + occs f bs i := by
  cases b <;> simp [occs, Block.id, Block.loopKids]

theorem occ_nil (i : String) : occ [] i = 0 := by
  simp [occ, occs]

theorem occ_cons (b : Block) (bs : List Block) (i : String) :
    occ (b :: bs) i = (if b.id = i then 1 else 0) + occ b.loopKids i + occ bs i := by
  simp [occ, occs_cons]

theorem occAll_nil (i : String) : occAll [] i = 0 := by
  simp [occAll]

theorem occAll_cons (b : Block) (bs : List Block) (i : String) :
    occAll (b :: bs) i = (if b.id = i then 1 else 0) + occAll b.allKids i + occAll bs i := by
  cases b with
  | notifyUntil a bo c d e f g h ch => cases ch <;> simp [occAll, Block.id, Block.allKids]
  | _ => simp [occAll, Block.id, Block.allKids]

theorem countSteps_nil : countSteps [] = 0 := by
  simp [countSteps]

theorem countSteps_cons (b : Block) (bs : List Block) :
    countSteps (b :: bs) = 1 + countSteps b.allKids + countSteps bs := by
  cases b with
  | notifyUntil a bo c d e f g h ch => cases ch <;> simp [countSteps, Block.allKids]
  | _ => simp [countSteps, Block.allKids]

theorem loopKids_eq_allKids_or_nil (b : Block) :
    b.loopKids = b.allKids ∨ b.loopKids = [] := by
  cases b <;> simp [Block.loopKids, Block.allKids]

theorem occs_le_occ (f : Block → Bool) (bs : List Block) (i : String) :
    occs f bs i ≤ occ bs i := by
  induction bs using blockListInd with
  | hnil => simp [occs_nil, occ_nil]
  | hcons b bs ih1 ih2 ih3 =>
    rw [occs_cons, occ_cons]
    by_cases h : b.id = i <;> by_cases hf : f b = true <;> simp [h, hf] <;> omega

theorem occ_le_occAll (bs : List Block) (i : String) : occ bs i ≤ occAll bs i := by
  induction bs using blockListInd with
  | hnil => simp [occ_nil, occAll_nil]
  | hcons b bs ih1 ih2 ih3 =>
    rw [occ_cons, occAll_cons]
    rcases loopKids_eq_allKids_or_nil b with h | h
    · rw [h] at ih1 ⊢
      omega
    · rw [h] at ih1 ⊢
      rw [occ_nil] at *
      omega

theorem findBlockById_cons (b : Block) (bs : List Block) (i : String) :
    findBlockById (b :: bs) i =
      if b.id = i then some b
      else match findBlockById b.loopKids i with
        | some f => some f
        | none => findBlockById bs i := by
  cases b <;> simp only [findBlockById, Block.id, Block.loopKids]

theorem findBlockById_cons_hit {b : Block} {i : String} (bs : List Block) (h : b.id = i) :
    findBlockById (b :: bs) i = some b := by
  rw [findBlockById_cons, if_pos h]

theorem findBlockById_cons_found {b : Block} {i : String} {m : Block} (bs : List Block)
    (h : b.id ≠ i) (hch : findBlockById b.loopKids i = some m) :
    findBlockById (b :: bs) i = some m := by
  rw [findBlockById_cons, if_neg h, hch]

theorem findBlockById_cons_rest {b : Block} {i : String} (bs : List Block)
    (h : b.id ≠ i) (hch : findBlockById b.loopKids i = none) :
    findBlockById (b :: bs) i = findBlockById bs i := by
  rw [findBlockById_cons, if_neg h, hch]

theorem findBlockById_eq_none_iff (bs : List Block) (i : String) :
    findBlockById bs i = none ↔ occ bs i = 0 := by
  induction bs using blockListInd with
  | hnil => simp [findBlockById, occ_nil]
  | hcons b bs ih1 ih2 ih3 =>
    by_cases h : b.id = i
    · rw [findBlockById_cons_hit bs h, occ_cons]
      simp [h]
    · cases hch : findBlockById b.loopKids i with
      | some m =>
        rw [findBlockById_cons_found bs h hch, occ_cons]
        have : ¬(occ b.loopKids i = 0) := by
          rw [← ih1]
          simp [hch]
        simp [h]
        omega
      | none =>
        rw [findBlockById_cons_rest bs h hch, occ_cons]
        have h0 : occ b.loopKids i = 0 := by
          rw [← ih1]
          exact hch
        simp [h, h0, ih3]

theorem findBlockById_id (bs : List Block) (i : String) (m : Block)
    (hm : findBlockById bs i = some m) : m.id = i := by
  induction bs using blockListInd with
  | hnil => simp [findBlockById] at hm
  | hcons b bs ih1 ih2 ih3 =>
    by_cases h : b.id = i
    · rw [findBlockById_cons_hit bs h] at hm
      cases hm
      exact h
    · cases hch : findBlockById b.loopKids i with
      | some f =>
        rw [findBlockById_cons_found bs h hch] at hm
        cases hm
        exact ih1 hch
      | none =>
        rw [findBlockById_cons_rest bs h hch] at hm
        exact ih3 hm

theorem findBlockById_pred (bs : List Block) (i : String) (m : Block)
    (hm : findBlockById bs i = some m) (hocc : occ bs i = 1) (f : Block → Bool) :
    occs f bs i = if f m then 1 else 0 := by
  induction bs using blockListInd with
  | hnil => simp [findBlockById] at hm
  | hcons b bs ih1 ih2 ih3 =>
    by_cases h : b.id = i
    · rw [findBlockById_cons_hit bs h] at hm
      cases hm
      rw [occ_cons] at hocc
      rw [occs_cons]
      have hk : occ m.loopKids i = 0 ∧ occ bs i = 0 := by
        simp [h] at hocc
        omega
      have h1 := occs_le_occ f m.loopKids i
      have h2 := occs_le_occ f bs i
      by_cases hf : f m = true <;> simp [h, hf] <;> omega
    · rw [occ_cons] at hocc
      rw [occs_cons]
      simp [h] at hocc ⊢
      cases hch : findBlockById b.loopKids i with
      | some g =>
        rw [findBlockById_cons_found bs h hch] at hm
        cases hm
        have hne : ¬(occ b.loopKids i = 0) := by
          rw [← findBlockById_eq_none_iff]
          simp [hch]
        have hk : occ b.loopKids i = 1 ∧ occ bs i = 0 := by omega
        have h2 := occs_le_occ f bs i
        rw [ih1 hch hk.1 ]
        omega
      | none =>
        rw [findBlockById_cons_rest bs h hch] at hm
        have h0 : occ b.loopKids i = 0 := by
          rw [← findBlockById_eq_none_iff]
          exact hch
        have h1 := occs_le_occ f b.loopKids i
        have hk : occ bs i = 1 := by omega
        rw [ih3 hm hk]
        omega

theorem occ_singleton (b : Block) (j : String) :
    occ [b] j = (if b.id = j then 1 else 0) + occ b.loopKids j := by
  rw [occ_cons, occ_nil]
  omega

theorem occLoop_singleton (b : Block) (j : String) :
    occLoop [b] j = (if b.id = j ∧ b.isLoop then 1 else 0) + occLoop b.loopKids j := by
  simp [occLoop, occs_cons, occs_nil]

theorem occAll_singleton (b : Block) (j : String) :
    occAll [b] j = (if b.id = j then 1 else 0) + occAll b.allKids j := by
  rw [occAll_cons, occAll_nil]
  omega

theorem countSteps_singleton (b : Block) :
    countSteps [b] = 1 + countSteps b.allKids := by
  rw [countSteps_cons, countSteps_nil]
  omega

theorem occLoop_cons (b : Block) (bs : List Block) (i : String) :
    occLoop (b :: bs) i =
      (if b.id = i ∧ b.isLoop then 1 else 0) + occLoop b.loopKids i + occLoop bs i := by
  simp [occLoop, occs_cons]

theorem occLoop_le_occ (bs : List Block) (i : String) : occLoop bs i ≤ occ bs i :=
  occs_le_occ Block.isLoop bs i

theorem countSteps_append (xs ys : List Block) :
    countSteps (xs ++ ys) = countSteps xs + countSteps ys := by
  induction xs using blockListInd with
  | hnil => simp [countSteps_nil]
  | hcons b bs ih1 ih2 ih3 =>
    rw [List.cons_append, countSteps_cons, countSteps_cons, ih3]
    omega

theorem cloneBlocks_eq : ∀ bs : List Block, cloneBlocks bs = bs
  | [] => rfl
  | b :: bs => by
      rw [cloneBlocks]
      rw [cloneBlocks_eq bs]
      congr 1
      match b with
      | .loop lid r ch => rw [cloneBlock, cloneBlocks_eq ch]
      | .wait _ _ _ => rfl
      | .waitUntil _ _ _ => rfl
      | .playSound _ _ _ _ => rfl
      | .playSoundUntil _ _ _ _ => rfl
      | .notify _ _ _ => rfl
      | .notifyUntil _ _ _ _ _ _ _ _ _ => rfl

theorem cloneBlock_eq (b : Block) : cloneBlock b = b := by
  match b with
  | .loop lid r ch => rw [cloneBlock, cloneBlocks_eq ch]
  | .wait _ _ _ => rfl
  | .waitUntil _ _ _ => rfl
  | .playSound _ _ _ _ => rfl
  | .playSoundUntil _ _ _ _ => rfl
  | .notify _ _ _ => rfl
  | .notifyUntil _ _ _ _ _ _ _ _ _ => rfl

theorem blockContainsId_isLoop {b : Block} {i : String}
    (h : blockContainsId b i = true) : b.isLoop = true := by
  cases b <;> first | rfl | simp [blockContainsId] at h

theorem blockContainsId_loop (lid : String) (r : Int) (ch : List Block) (i : String) :
    blockContainsId (.loop lid r ch) i = blockChildrenContain ch i := by
  simp [blockContainsId]

theorem blockChildrenContain_iff (i : String) : ∀ cs : List Block,
    (blockChildrenContain cs i = true ↔ 0 < occ cs i) := by
  intro cs
  induction cs using blockListInd with
  | hnil => simp [blockChildrenContain, occ_nil]
  | hcons c cs ih1 ih2 ih3 =>
    rw [occ_cons]
    cases c with
    | loop lid r ch =>
      rw [blockChildrenContain]
      simp only [Block.id, Block.isLoop, Block.loopKids] at ih1 ⊢
      rw [blockContainsId_loop]
      by_cases hid : lid = i <;> simp [hid, ih1, ih3]
    | wait a av u =>
      rw [blockChildrenContain]
      by_cases hid : a = i <;>
        simp [Block.id, Block.isLoop, Block.loopKids, blockContainsId, ih3, occ_nil, hid]
    | waitUntil a t ap =>
      rw [blockChildrenContain]
      by_cases hid : a = i <;>
        simp [Block.id, Block.isLoop, Block.loopKids, blockContainsId, ih3, occ_nil, hid]
    | playSound a st l cu =>
      rw [blockChildrenContain]
      by_cases hid : a = i <;>
        simp [Block.id, Block.isLoop, Block.loopKids, blockContainsId, ih3, occ_nil, hid]
    | playSoundUntil a st l cu =>
      rw [blockChildrenContain]
      by_cases hid : a = i <;>
        simp [Block.id, Block.isLoop, Block.loopKids, blockContainsId, ih3, occ_nil, hid]
    | notify a t bo =>
      rw [blockChildrenContain]
      by_cases hid : a = i <;>
        simp [Block.id, Block.isLoop, Block.loopKids, blockContainsId, ih3, occ_nil, hid]
    | notifyUntil a t bo la tm st cu iv ch =>
      rw [blockChildrenContain]
      by_cases hid : a = i <;>
        simp [Block.id, Block.isLoop, Block.loopKids, blockContainsId, ih3, occ_nil, hid]

theorem loopKids_of_not_loop {b : Block} (hb : b.isLoop = false) : b.loopKids = [] := by
  cases b <;> simp [Block.isLoop] at hb ⊢ <;> simp [Block.loopKids]

theorem farGo_nil (i : String) (found : Option Block) : farGo i [] found = (found, []) := by
  simp [farGo]

theorem farGo_cons_hit {b : Block} {i : String} (bs : List Block) (found : Option Block)
    (h : b.id = i) : farGo i (b :: bs) found = farGo i bs (some b) := by
  cases b <;> simp only [Block.id] at h <;> simp [farGo, Block.id, h]

theorem farGo_cons_loop {lid i : String} (r : Int) (ch bs : List Block) (found : Option Block)
    (h : lid ≠ i) :
    farGo i (.loop lid r ch :: bs) found =
      ((farGo i bs (match found with | none => (farGo i ch none).1 | some f => some f)).1,
        .loop lid r (farGo i ch none).2 ::
          (farGo i bs (match found with | none => (farGo i ch none).1 | some f => some f)).2) := by
  conv_lhs => rw [farGo]
  simp [Block.id, h]

theorem farGo_cons_other {b : Block} {i : String} (bs : List Block) (found : Option Block)
    (hb : b.isLoop = false) (h : b.id ≠ i) :
    farGo i (b :: bs) found = ((farGo i bs found).1, b :: (farGo i bs found).2) := by
  cases b <;> simp [Block.isLoop] at hb <;> simp only [Block.id] at h <;>
    simp [farGo, Block.id, h]

theorem farGo_no_occ (i : String) (bs : List Block) : ∀ (found : Option Block),
    occ bs i = 0 → farGo i bs found = (found, bs) := by
  induction bs using blockListInd with
  | hnil => intro found _; exact farGo_nil i found
  | hcons b bs ih1 ih2 ih3 =>
    intro found h
    rw [occ_cons] at h
    have hid : b.id ≠ i := by
      intro he
      simp [he] at h
    have hkid : occ b.loopKids i = 0 := by omega
    have hbs : occ bs i = 0 := by omega
    cases hb : b.isLoop with
    | false =>
      rw [farGo_cons_other bs found hb hid, ih3 found hbs]
    | true =>
      cases b with
      | loop lid r ch =>
        simp only [Block.id] at hid
        simp only [Block.loopKids] at hkid ih1
        rw [farGo_cons_loop r ch bs found hid, ih1 none hkid]
        have hm : (match found with
            | none => ((none : Option Block), ch).1
            | some f => some f) = found := by
          cases found <;> rfl
        rw [hm, ih3 found hbs]
      | _ => simp [Block.isLoop] at hb

theorem occLoop_nil (i : String) : occLoop [] i = 0 := by
  simp [occLoop, occs_nil]

theorem farGo_found (i : String) (bs : List Block) : occ bs i = 1 → FarSpec i bs := by
  induction bs using blockListInd with
  | hnil => intro h; rw [occ_nil] at h; omega
  | hcons b bs ih1 ih2 ih3 =>
    intro h
    rw [occ_cons] at h
    by_cases hid : b.id = i
    · have hkid : occ b.loopKids i = 0 := by simp [hid] at h; omega
      have hbs : occ bs i = 0 := by simp [hid] at h; omega
      refine ⟨b, bs, ?_, findBlockById_cons_hit bs hid, hid, ?_, ?_, ?_⟩
      · rw [farGo_cons_hit bs none hid, farGo_no_occ i bs (some b) hbs]
      · simp only [countSteps_cons, countSteps_nil]
        omega
      · intro j
        simp only [occ_cons, occ_nil]
        omega
      · intro j
        simp only [occLoop_cons, occLoop_nil]
        omega
    · cases hb : b.isLoop with
      | false =>
        have hkid : occ b.loopKids i = 0 := by rw [loopKids_of_not_loop hb, occ_nil]
        have hbs : occ bs i = 1 := by simp [hid] at h; omega
        obtain ⟨m, w, heq, hfind, hmid, hcount, hocc, hoccL⟩ := ih3 hbs
        refine ⟨m, b :: w, ?_, ?_, hmid, ?_, ?_, ?_⟩
        · rw [farGo_cons_other bs none hb hid, heq]
        · rw [findBlockById_cons_rest bs hid
            ((findBlockById_eq_none_iff b.loopKids i).2 hkid)]
          exact hfind
        · simp only [countSteps_cons, countSteps_nil] at hcount ⊢
          omega
        · intro j
          simp only [occ_cons, occ_nil] at hocc ⊢
          have := hocc j
          omega
        · intro j
          simp only [occLoop_cons, occLoop_nil] at hoccL ⊢
          have := hoccL j
          omega
      | true =>
        cases b with
        | loop lid r ch =>
          simp only [Block.id] at hid
          simp only [Block.id, Block.loopKids] at h ih1
          rcases Nat.lt_or_ge 0 (occ ch i) with hpos | hzero
          · have hch : occ ch i = 1 := by simp [hid] at h; omega
            have hbs : occ bs i = 0 := by simp [hid] at h; omega
            obtain ⟨m, wch, heq, hfind, hmid, hcount, hocc, hoccL⟩ := ih1 hch
            refine ⟨m, .loop lid r wch :: bs, ?_, ?_, hmid, ?_, ?_, ?_⟩
            · rw [farGo_cons_loop r ch bs none hid, heq]
              show ((farGo i bs (some m)).1,
                Block.loop lid r wch :: (farGo i bs (some m)).2) = _
              rw [farGo_no_occ i bs (some m) hbs]
            · exact @findBlockById_cons_found (Block.loop lid r ch) i m bs hid hfind
            · simp only [countSteps_cons, countSteps_nil, Block.allKids] at hcount ⊢
              omega
            · intro j
              simp only [occ_cons, occ_nil, Block.id, Block.loopKids] at hocc ⊢
              have := hocc j
              omega
            · intro j
              simp [occLoop_cons, occLoop_nil, Block.id, Block.isLoop,
                Block.loopKids] at hoccL ⊢
              have := hoccL j
              omega
          · have hch : occ ch i = 0 := by omega
            have hbs : occ bs i = 1 := by simp [hid] at h; omega
            obtain ⟨m, w, heq, hfind, hmid, hcount, hocc, hoccL⟩ := ih3 hbs
            refine ⟨m, .loop lid r ch :: w, ?_, ?_, hmid, ?_, ?_, ?_⟩
            · rw [farGo_cons_loop r ch bs none hid, farGo_no_occ i ch none hch]
              show ((farGo i bs none).1,
                Block.loop lid r ch :: (farGo i bs none).2) = _
              rw [heq]
            · rw [@findBlockById_cons_rest (Block.loop lid r ch) i bs hid
                ((findBlockById_eq_none_iff ch i).2 hch)]
              exact hfind
            · simp only [countSteps_cons, countSteps_nil, Block.allKids] at hcount ⊢
              omega
            · intro j
              simp only [occ_cons, occ_nil, Block.id, Block.loopKids] at hocc ⊢
              have := hocc j
              omega
            · intro j
              simp [occLoop_cons, occLoop_nil, Block.id, Block.isLoop,
                Block.loopKids] at hoccL ⊢
              have := hoccL j
              omega
        | _ => simp [Block.isLoop] at hb

theorem insertRelative_nil (t : String) (nb : Block) (pos : InsertPosition) :
    insertRelative [] t nb pos = [] := by
  simp [insertRelative]

theorem insertRelative_cons_before {b : Block} {t : String} (bs : List Block) (nb : Block)
    (h : b.id = t) :
    insertRelative (b :: bs) t nb .before = nb :: b :: insertRelative bs t nb .before := by
  cases b <;> simp only [Block.id] at h <;> simp [insertRelative, Block.id, h]

theorem insertRelative_cons_after {b : Block} {t : String} (bs : List Block) (nb : Block)
    (h : b.id = t) :
    insertRelative (b :: bs) t nb .after = b :: nb :: insertRelative bs t nb .after := by
  cases b <;> simp only [Block.id] at h <;> simp [insertRelative, Block.id, h]

theorem insertRelative_cons_inside_loop {lid t : String} (r : Int) (ch bs : List Block)
    (nb : Block) (h : lid = t) :
    insertRelative (.loop lid r ch :: bs) t nb .inside =
      .loop lid r (ch ++ [nb]) :: insertRelative bs t nb .inside := by
  simp [insertRelative, Block.id, h]

theorem insertRelative_cons_inside_other {b : Block} {t : String} (bs : List Block)
    (nb : Block) (hb : b.isLoop = false) (h : b.id = t) :
    insertRelative (b :: bs) t nb .inside = b :: insertRelative bs t nb .inside := by
  cases b <;> simp [Block.isLoop] at hb <;> simp only [Block.id] at h <;>
    simp [insertRelative, Block.id, h]

theorem insertRelative_cons_miss_loop {lid t : String} (r : Int) (ch bs : List Block)
    (nb : Block) (pos : InsertPosition) (h : lid ≠ t) :
    insertRelative (.loop lid r ch :: bs) t nb pos =
      .loop lid r (insertRelative ch t nb pos) :: insertRelative bs t nb pos := by
  simp [insertRelative, Block.id, h]

theorem insertRelative_cons_miss_other {b : Block} {t : String} (bs : List Block)
    (nb : Block) (pos : InsertPosition) (hb : b.isLoop = false) (h : b.id ≠ t) :
    insertRelative (b :: bs) t nb pos = b :: insertRelative bs t nb pos := by
  cases b <;> simp [Block.isLoop] at hb <;> simp only [Block.id] at h <;>
    simp [insertRelative, Block.id, h]

theorem insertRelative_no_occ (t : String) (nb : Block) (pos : InsertPosition)
    (bs : List Block) : occ bs t = 0 → insertRelative bs t nb pos = bs := by
  induction bs using blockListInd with
  | hnil => intro _; exact insertRelative_nil t nb pos
  | hcons b bs ih1 ih2 ih3 =>
    intro h
    rw [occ_cons] at h
    have hid : b.id ≠ t := by
      intro he
      simp [he] at h
    have hkid : occ b.loopKids t = 0 := by omega
    have hbs : occ bs t = 0 := by omega
    cases hb : b.isLoop with
    | false => rw [insertRelative_cons_miss_other bs nb pos hb hid, ih3 hbs]
    | true =>
      cases b with
      | loop lid r ch =>
        simp only [Block.id] at hid
        simp only [Block.loopKids] at hkid ih1
        rw [insertRelative_cons_miss_loop r ch bs nb pos hid, ih1 hkid, ih3 hbs]
      | _ => simp [Block.isLoop] at hb

theorem insertRelative_count (t : String) (nb : Block) (pos : InsertPosition)
    (bs : List Block) : occ bs t = 1 → (pos = .inside → occLoop bs t = 1) →
    countSteps (insertRelative bs t nb pos) = countSteps bs + countSteps [nb] := by
  induction bs using blockListInd with
  | hnil => intro h _; rw [occ_nil] at h; omega
  | hcons b bs ih1 ih2 ih3 =>
    intro h hl
    rw [occ_cons] at h
    by_cases hid : b.id = t
    · have hkid : occ b.loopKids t = 0 := by simp [hid] at h; omega
      have hbs : occ bs t = 0 := by simp [hid] at h; omega
      have hrest := insertRelative_no_occ t nb pos bs hbs
      cases pos with
      | before =>
        rw [insertRelative_cons_before bs nb hid, hrest]
        simp only [countSteps_cons, countSteps_nil]
        omega
      | after =>
        rw [insertRelative_cons_after bs nb hid, hrest]
        simp only [countSteps_cons, countSteps_nil]
        omega
      | inside =>
        have hlp := hl rfl
        rw [occLoop_cons] at hlp
        have h1 := occLoop_le_occ b.loopKids t
        have h2 := occLoop_le_occ bs t
        have hbl : b.isLoop = true := by
          by_cases hbb : b.isLoop = true
          · exact hbb
          · exfalso
            simp [hbb] at hlp
            omega
        cases b with
        | loop lid r ch =>
          simp only [Block.id] at hid
          rw [insertRelative_cons_inside_loop r ch bs nb hid, hrest]
          simp only [countSteps_cons, countSteps_nil, Block.allKids, countSteps_append]
          omega
        | _ => simp [Block.isLoop] at hbl
    · cases hbl : b.isLoop with
      | false =>
        have hkid : occ b.loopKids t = 0 := by rw [loopKids_of_not_loop hbl, occ_nil]
        have hbs : occ bs t = 1 := by simp [hid] at h; omega
        have hl' : pos = .inside → occLoop bs t = 1 := by
          intro hp
          have hlp := hl hp
          rw [occLoop_cons] at hlp
          have h1 := occLoop_le_occ b.loopKids t
          simp [hid] at hlp
          omega
        rw [insertRelative_cons_miss_other bs nb pos hbl hid]
        have hh := ih3 hbs hl'
        simp only [countSteps_cons, countSteps_nil] at hh ⊢
        omega
      | true =>
        cases b with
        | loop lid r ch =>
          simp only [Block.id] at hid
          simp only [Block.id, Block.loopKids] at h ih1
          rcases Nat.lt_or_ge 0 (occ ch t) with hpos | hzero
          · have hch : occ ch t = 1 := by simp [hid] at h; omega
            have hbs : occ bs t = 0 := by simp [hid] at h; omega
            have hl' : pos = .inside → occLoop ch t = 1 := by
              intro hp
              have hlp := hl hp
              rw [occLoop_cons] at hlp
              simp only [Block.id, Block.isLoop, Block.loopKids] at hlp
              have h2 := occLoop_le_occ bs t
              simp [hid] at hlp
              omega
            rw [insertRelative_cons_miss_loop r ch bs nb pos hid,
              insertRelative_no_occ t nb pos bs hbs]
            have hh := ih1 hch hl'
            simp only [countSteps_cons, countSteps_nil, Block.allKids] at hh ⊢
            omega
          · have hch : occ ch t = 0 := by omega
            have hbs : occ bs t = 1 := by simp [hid] at h; omega
            have hl' : pos = .inside → occLoop bs t = 1 := by
              intro hp
              have hlp := hl hp
              rw [occLoop_cons] at hlp
              simp only [Block.id, Block.isLoop, Block.loopKids] at hlp
              have h1 := occLoop_le_occ ch t
              simp [hid] at hlp
              omega
            rw [insertRelative_cons_miss_loop r ch bs nb pos hid,
              insertRelative_no_occ t nb pos ch hch]
            have hh := ih3 hbs hl'
            simp only [countSteps_cons, countSteps_nil, Block.allKids] at hh ⊢
            omega
        | _ => simp [Block.isLoop] at hbl

theorem find_occ_decomp (i : String) (bs : List Block) : ∀ m, findBlockById bs i = some m →
    ∀ j, occ bs j + occAll [m] j ≤ occ [m] j + occAll bs j := by
  induction bs using blockListInd with
  | hnil => intro m hm; simp [findBlockById] at hm
  | hcons b bs ih1 ih2 ih3 =>
    intro m hm j
    by_cases hid : b.id = i
    · rw [findBlockById_cons_hit bs hid] at hm
      cases hm
      simp only [occ_cons, occ_nil, occAll_cons, occAll_nil]
      have := occ_le_occAll bs j
      omega
    · cases hch : findBlockById b.loopKids i with
      | some f =>
        rw [findBlockById_cons_found bs hid hch] at hm
        cases hm
        have hrec := ih1 m hch j
        rcases loopKids_eq_allKids_or_nil b with he | he
        · simp only [occ_cons, occ_nil, occAll_cons, occAll_nil] at hrec ⊢
          rw [he] at hrec ⊢
          have := occ_le_occAll bs j
          omega
        · rw [he] at hch
          simp [findBlockById] at hch
      | none =>
        rw [findBlockById_cons_rest bs hid hch] at hm
        have hrec := ih3 m hm j
        simp only [occ_cons, occ_nil, occAll_cons, occAll_nil] at hrec ⊢
        have h1 : occ b.loopKids j ≤ occAll b.allKids j := by
          rcases loopKids_eq_allKids_or_nil b with he | he
          · rw [he]
            exact occ_le_occAll _ _
          · rw [he, occ_nil]
            omega
        omega

/-- Claim C2: `moveBlock` returns the input tree unchanged whenever the
moving id equals the target id, the moving id is not found, or the target
id lies inside the subtree rooted at the moving block (its descendants
through `loop` and `notifyUntil` children alike) — in particular a
container is never moved inside one of its own descendants.  The
hypotheses `occAll T _ ≤ 1` are the data model's documented invariant
that identifiers are unique within one timer's tree. -/
theorem moveBlock_refuses (T : List Block) (mid tid : String) (pos : InsertPosition)
    (humid : occAll T mid ≤ 1) (hutid : occAll T tid ≤ 1)
    (hcase : mid = tid ∨ findBlockById T mid = none ∨
      (∃ m, findBlockById T mid = some m ∧ 0 < kidsAll m tid)) :
    moveBlock T mid tid pos = T := by
  by_cases hmt : mid = tid
  · simp [moveBlock, hmt]
  · cases hft : findBlockById T tid with
    | none => simp [moveBlock, hmt, hft]
    | some t =>
      rcases hcase with h | h | ⟨m, hfm, hk⟩
      · exact absurd h hmt
      · have h0 : occ T mid = 0 := (findBlockById_eq_none_iff T mid).1 h
        have hfr : findAndRemove T mid = (none, T) := by
          rw [findAndRemove, farGo_no_occ mid T none h0]
        simp [moveBlock, hmt, hft, hfr]
      · have hocc1 : occ T mid = 1 := by
          have hnn : ¬ findBlockById T mid = none := by simp [hfm]
          have hne0 : ¬ occ T mid = 0 :=
            fun h0 => hnn ((findBlockById_eq_none_iff T mid).2 h0)
          have h2 := occ_le_occAll T mid
          omega
        obtain ⟨m', w, heq, hfind, hmid', hcount, hoccE, hoccL⟩ := farGo_found mid T hocc1
        have hmm : m' = m := by
          rw [hfind] at hfm
          exact Option.some.inj hfm
        subst hmm
        by_cases hbc : blockContainsId m' tid = true
        · have hl := blockContainsId_isLoop hbc
          have hfr : findAndRemove T mid = (some m', w) := by rw [findAndRemove, heq]
          simp [moveBlock, hmt, hft, hfr, hl, hbc]
        · exfalso
          have hdec := find_occ_decomp mid T m' hfind tid
          have htpos : 0 < occ T tid := by
            have hnn : ¬ findBlockById T tid = none := by simp [hft]
            have hne0 : ¬ occ T tid = 0 :=
              fun h0 => hnn ((findBlockById_eq_none_iff T tid).2 h0)
            omega
          have hmA : 0 < occAll [m'] tid := by
            rw [occAll_singleton]
            unfold kidsAll at hk
            omega
          have hmO : occ [m'] tid = 0 := by
            rw [occ_singleton]
            have hne2 : ¬ m'.id = tid := by rw [hmid']; exact hmt
            have hlk : occ m'.loopKids tid = 0 := by
              cases hlp : m'.isLoop with
              | false => rw [loopKids_of_not_loop hlp, occ_nil]
              | true =>
                cases m' with
                | loop lid r ch =>
                  simp only [Block.loopKids]
                  by_contra hpos2
                  have hcc : blockChildrenContain ch tid = true :=
                    (blockChildrenContain_iff tid ch).2 (by omega)
                  rw [blockContainsId_loop] at hbc
                  exact hbc hcc
                | _ => simp [Block.isLoop] at hlp
            simp [hne2, hlk]
          omega

/-- Witness for C2: moving the loop "L" to a position inside its own
child "C" leaves the tree unchanged. -/
theorem moveBlock_refuses_witness :
    moveBlock [Block.loop "L" 2 [Block.wait "C" (some 1) .seconds]] "L" "C" .inside =
      [Block.loop "L" 2 [Block.wait "C" (some 1) .seconds]] :=
  moveBlock_refuses [Block.loop "L" 2 [Block.wait "C" (some 1) .seconds]] "L" "C" .inside
    (by simp [occAll, Block.id])
    (by simp [occAll, Block.id])
    (Or.inr (Or.inr ⟨Block.loop "L" 2 [Block.wait "C" (some 1) .seconds],
      by simp [findBlockById, Block.id],
      by simp [kidsAll, occAll, Block.allKids, Block.id]⟩))

/-- Claim C1 counterexample: moving step "A" to the position "inside" the
leaf step "B" is not refused by the rules the claim lists (distinct ids,
both found, target not inside the moving subtree), yet the result has one
step where the input had two — `insertRelative` drops the moved block when
the position is `inside` and the target is not a `loop`. -/
theorem moveBlock_inside_leaf_cex :
    moveBlock [Block.wait "A" (some 1) .seconds, Block.wait "B" (some 1) .seconds]
        "A" "B" .inside = [Block.wait "B" (some 1) .seconds] ∧
    countSteps [Block.wait "A" (some 1) .seconds, Block.wait "B" (some 1) .seconds] = 2 ∧
    countSteps [Block.wait "B" (some 1) .seconds] = 1 ∧
    ("A" : String) ≠ "B" ∧
    (findBlockById [Block.wait "A" (some 1) .seconds, Block.wait "B" (some 1) .seconds]
      "A").isSome = true ∧
    (findBlockById [Block.wait "A" (some 1) .seconds, Block.wait "B" (some 1) .seconds]
      "B").isSome = true ∧
    kidsAll (Block.wait "A" (some 1) .seconds) "B" = 0 := by
  refine ⟨?_, ?_, ?_, by decide, ?_, ?_, ?_⟩ <;>
    simp [moveBlock, findBlockById, findAndRemove, farGo, insertRelative, cloneBlock,
      countSteps, kidsAll, occAll, Block.id, Block.isLoop, Block.allKids]

/-- Claim C1 (amended): for a tree with unique identifiers (the data
model's documented invariant), a `moveBlock` call that is not refused —
the ids differ, both are found, the target does not lie inside the moving
subtree — conserves the total step count **provided** that a position
"inside" targets a `loop` step; when the position is "inside" a non-loop
target, `insertRelative` keeps the target and drops the moved block, so
the count shrinks (see the counterexample). -/
theorem moveBlock_count_conserved (T : List Block) (mid tid : String) (pos : InsertPosition)
    (hne : mid ≠ tid)
    (humid : occAll T mid ≤ 1) (hutid : occAll T tid ≤ 1)
    (hmfound : (findBlockById T mid).isSome = true)
    (htfound : (findBlockById T tid).isSome = true)
    (hnotin : ∀ m, findBlockById T mid = some m → kidsAll m tid = 0)
    (hinside : pos = .inside → ∀ u, findBlockById T tid = some u → u.isLoop = true) :
    countSteps (moveBlock T mid tid pos) = countSteps T := by
  have hoccm : occ T mid = 1 := by
    have hnn : ¬ findBlockById T mid = none := by
      cases h : findBlockById T mid
      · rw [h] at hmfound
        simp at hmfound
      · simp
    have hne0 : ¬ occ T mid = 0 := fun h0 => hnn ((findBlockById_eq_none_iff T mid).2 h0)
    have h2 := occ_le_occAll T mid
    omega
  have hocct : occ T tid = 1 := by
    have hnn : ¬ findBlockById T tid = none := by
      cases h : findBlockById T tid
      · rw [h] at htfound
        simp at htfound
      · simp
    have hne0 : ¬ occ T tid = 0 := fun h0 => hnn ((findBlockById_eq_none_iff T tid).2 h0)
    have h2 := occ_le_occAll T tid
    omega
  obtain ⟨t, hft⟩ : ∃ t, findBlockById T tid = some t := by
    cases h : findBlockById T tid
    · rw [h] at htfound
      simp at htfound
    · exact ⟨_, rfl⟩
  obtain ⟨m, w, heq, hfm, hmid, hcount, hoccE, hoccL⟩ := farGo_found mid T hoccm
  have hkids : kidsAll m tid = 0 := hnotin m hfm
  have hbc : ¬ (m.isLoop = true ∧ blockContainsId m tid = true) := by
    rintro ⟨hl, hc⟩
    cases m with
    | loop lid r ch =>
      rw [blockContainsId_loop] at hc
      have hgt := (blockChildrenContain_iff tid ch).1 hc
      have hle := occ_le_occAll ch tid
      unfold kidsAll at hkids
      simp only [Block.allKids] at hkids
      omega
    | _ => simp [Block.isLoop] at hl
  have hmocc : occ [m] tid = 0 := by
    rw [occ_singleton]
    have hne2 : ¬ m.id = tid := by rw [hmid]; exact hne
    have hlk : occ m.loopKids tid = 0 := by
      rcases loopKids_eq_allKids_or_nil m with he | he
      · rw [he]
        have := occ_le_occAll m.allKids tid
        unfold kidsAll at hkids
        omega
      · rw [he, occ_nil]
    simp [hne2, hlk]
  have hwocc : occ w tid = 1 := by
    have := hoccE tid
    omega
  have hwloop : pos = .inside → occLoop w tid = 1 := by
    intro hp
    have hLT : occLoop T tid = 1 := by
      have hpred := findBlockById_pred T tid t hft hocct Block.isLoop
      rw [hinside hp t hft] at hpred
      rw [occLoop]
      simpa using hpred
    have h1 := hoccL tid
    have h2 : occLoop [m] tid ≤ occ [m] tid := occLoop_le_occ [m] tid
    omega
  have hfr : findAndRemove T mid = (some m, w) := by rw [findAndRemove, heq]
  have hmv : moveBlock T mid tid pos = insertRelative w tid (cloneBlock m) pos := by
    simp [moveBlock, hne, hft, hfr, hbc]
  rw [hmv, cloneBlock_eq, insertRelative_count tid m pos w hwocc hwloop]
  omega

/-- Witness for C1's amended theorem: moving the nested "A" after the
top-level "B" keeps the total step count at 3. -/
theorem moveBlock_count_conserved_witness :
    countSteps (moveBlock
      [Block.loop "L" 2 [Block.wait "A" (some 1) .seconds],
        Block.wait "B" (some 1) .seconds] "A" "B" .after) =
    countSteps
      [Block.loop "L" 2 [Block.wait "A" (some 1) .seconds],
        Block.wait "B" (some 1) .seconds] :=
  moveBlock_count_conserved
    [Block.loop "L" 2 [Block.wait "A" (some 1) .seconds], Block.wait "B" (some 1) .seconds]
    "A" "B" .after (by decide)
    (by simp [occAll, Block.id])
    (by simp [occAll, Block.id])
    (by simp [findBlockById, Block.id])
    (by simp [findBlockById, Block.id])
    (by
      intro m hm
      simp [findBlockById, Block.id] at hm
      subst hm
      simp [kidsAll, occAll, Block.allKids, Block.id])
    (by intro hp; cases hp)

/-- Claim C7 counterexample: `unitToMs` does not clamp negative amounts
to 0 — `unitToMs(-1, "seconds")` is `-1000`, not `0`. -/
theorem unitToMs_negative_not_clamped :
    unitToMs (-1) .seconds = -1000 ∧ ¬ unitToMs (-1) .seconds = 0 := by
  constructor <;> simp [unitToMs]

/-- Claim C7 (amended): `unitToMs` is the plain linear conversion —
seconds×1000, minutes×60000, hours×3600000, days×86400000, so
`unitToMs 5 minutes = 300000` and `unitToMs 0 seconds = 0` — with no
clamping of its own (a negative amount yields a negative result); the
clamp to 0 for negative or missing amounts is applied by the `runWait`
executor, which converts `Math.max(0, amount || 0)`, so the effective
wait duration for a negative or missing amount is 0. -/
theorem unitToMs_linear_runWait_clamps :
    (∀ a : Int, unitToMs a .seconds = a * 1000) ∧
    (∀ a : Int, unitToMs a .minutes = a * 60000) ∧
    (∀ a : Int, unitToMs a .hours = a * 3600000) ∧
    (∀ a : Int, unitToMs a .days = a * 86400000) ∧
    unitToMs 5 .minutes = 300000 ∧
    unitToMs 0 .seconds = 0 ∧
    (∀ (a : Option Int) (u : TimeUnit),
      runWaitTotalMs a u = unitToMs (max 0 (a.getD 0)) u) ∧
    (∀ (a : Option Int) (u : TimeUnit), a.getD 0 ≤ 0 → runWaitTotalMs a u = 0) := by
  refine ⟨fun a => by simp [unitToMs], fun a => by simp [unitToMs]; ring,
    fun a => by simp [unitToMs]; ring, fun a => by simp [unitToMs]; ring,
    by simp [unitToMs], by simp [unitToMs], fun a u => rfl, fun a u h => ?_⟩
  have hmax : max 0 (a.getD 0) = 0 := by omega
  rw [runWaitTotalMs, hmax]
  cases u <;> simp [unitToMs]

/-- Witness for C7's amended theorem: a missing amount and a negative
amount both give an effective wait of 0 ms. -/
theorem unitToMs_linear_runWait_clamps_witness :
    runWaitTotalMs (some (-5)) .minutes = 0 ∧ runWaitTotalMs none .hours = 0 :=
  ⟨unitToMs_linear_runWait_clamps.2.2.2.2.2.2.2 (some (-5)) .minutes (by simp),
   unitToMs_linear_runWait_clamps.2.2.2.2.2.2.2 none .hours (by simp)⟩

/-- Claim C8 counterexample: a step that occurs in the tree (inside a
`NotifyUntil`'s children, at depth 1) is not returned by `findBlockById`,
which yields `null` although the step exists in the tree. -/
theorem findBlockById_misses_notifyUntil_child :
    findBlockById
      [.notifyUntil "N" "t" none none none none none none
        (some [.wait "X" (some 1) .seconds])] "X" = none ∧
    occAll
      [.notifyUntil "N" "t" none none none none none none
        (some [.wait "X" (some 1) .seconds])] "X" = 1 := by
  constructor
  · simp [findBlockById, Block.id]
  · simp [occAll, Block.id]

/-- Claim C8 (amended): `findBlockById` is a depth-first search that
descends into `loop` children only — `notifyUntil` children are never
searched.  It returns some step exactly when the id occurs at a
loop-reachable position, the returned step carries the searched id, and
it returns `null` exactly when the id has no loop-reachable occurrence. -/
theorem findBlockById_loop_reachable (bs : List Block) (i : String) :
    ((findBlockById bs i).isSome ↔ 0 < occ bs i) ∧
    (∀ m, findBlockById bs i = some m → m.id = i) := by
  constructor
  · rw [← Option.not_isSome_iff_eq_none.symm.not_left]
    constructor
    · intro h
      by_contra hno
      have h0 : occ bs i = 0 := by omega
      have := (findBlockById_eq_none_iff bs i).2 h0
      simp [this] at h
    · intro h
      have : ¬ findBlockById bs i = none := by
        rw [findBlockById_eq_none_iff]
        omega
      cases hf : findBlockById bs i with
      | some m => simp
      | none => exact absurd hf this
  · exact findBlockById_id bs i

/-- Witness for C8's amended theorem: in a tree with a `loop` container,
the nested step is loop-reachable and is found with its own id. -/
theorem findBlockById_loop_reachable_witness :
    ((findBlockById [.loop "L" 2 [.wait "W" (some 1) .seconds]] "W").isSome ↔
      0 < occ [.loop "L" 2 [.wait "W" (some 1) .seconds]] "W") ∧
    (Block.wait "W" (some 1) TimeUnit.seconds).id = "W" :=
  ⟨(findBlockById_loop_reachable [.loop "L" 2 [.wait "W" (some 1) .seconds]] "W").1,
   (findBlockById_loop_reachable [.loop "L" 2 [.wait "W" (some 1) .seconds]] "W").2
     (Block.wait "W" (some 1) TimeUnit.seconds)
     (by simp [findBlockById, Block.id])⟩

/-! Lemmas about the executor tick loops. -/

theorem jsSub_some (v d : Int) : jsSub (some v) d = some (v - d) := rfl

theorem jsLeZero_some (v : Int) : jsLeZero (some v) = decide (v ≤ 0) := rfl

theorem waitTickLoop_nan_not_completed : ∀ (es : List TickEv) (l : Int),
    waitTickLoop es none l ≠ .completed
  | [], l => by simp [waitTickLoop]
  | .abortTick :: es, l => by simp [waitTickLoop]
  | .pauseTick t :: es, l => by
      rw [waitTickLoop]
      exact waitTickLoop_nan_not_completed es t
  | .tick n :: es, l => by
      rw [waitTickLoop]
      simp only [jsSub, jsLeZero, Option.map_none]
      exact waitTickLoop_nan_not_completed es n

/-- Claim C5: the `runWait` tick loop charges only true wall-clock time
between observed instants against the remaining counter.  First, a pause
iteration leaves the counter untouched and resynchronizes the time anchor
to the resume instant.  Second, as long as the loop is still running, the
counter equals the initial total minus exactly the unpaused elapsed time.
Third, for every pause length `P ≥ 0`, a `Wait` of 2 seconds that has made
500 ms of unpaused progress before the pause still has 1 ms left 1499 ms of
unpaused time after resume and completes at 1500 ms after resume —
regardless of `P`. -/
theorem runWait_pause_excluded :
    (∀ (es : List TickEv) (r : Option Int) (l t : Int),
      waitTickLoop (.pauseTick t :: es) r l = waitTickLoop es r t) ∧
    (∀ (es : List TickEv) (r l : Int) (r' : Option Int) (l' : Int),
      waitTickLoop es (some r) l = .fuelOut r' l' →
      r' = some (r - unpausedElapsed es l)) ∧
    (∀ P : Int, 0 ≤ P →
      runWait (some 2) .seconds
        [.tick 500, .pauseTick (500 + P), .tick (500 + P + 1499),
          .tick (500 + P + 1500)] 0 = .completed ∧
      runWait (some 2) .seconds
        [.tick 500, .pauseTick (500 + P), .tick (500 + P + 1499)] 0 =
        .fuelOut (some 1) (500 + P + 1499)) := by
  refine ⟨fun es r l t => by rw [waitTickLoop], ?_, ?_⟩
  · intro es
    induction es with
    | nil =>
      intro r l r' l' h
      rw [waitTickLoop] at h
      cases h
      simp [unpausedElapsed]
    | cons e es ih =>
      cases e with
      | abortTick =>
        intro r l r' l' h
        rw [waitTickLoop] at h
        cases h
      | pauseTick t =>
        intro r l r' l' h
        rw [waitTickLoop] at h
        rw [unpausedElapsed]
        exact ih r t r' l' h
      | tick n =>
        intro r l r' l' h
        rw [waitTickLoop] at h
        simp only [jsSub, Option.map_some, jsLeZero] at h
        by_cases hc : r - (n - l) ≤ 0
        · simp [hc] at h
        · simp [hc] at h
          have := ih (r - (n - l)) n r' l' h
          rw [unpausedElapsed, this]
          congr 1
          omega
  · intro P hP
    constructor
    · show waitTickLoop _ (some 2000) 0 = .completed
      simp only [waitTickLoop, jsSub_some, jsLeZero_some, decide_eq_true_eq]
      split_ifs <;> first | rfl | omega
    · show waitTickLoop _ (some 2000) 0 = .fuelOut (some 1) (500 + P + 1499)
      simp only [waitTickLoop, jsSub_some, jsLeZero_some, decide_eq_true_eq]
      split_ifs
      all_goals try omega
      all_goals simp only [TickOutcome.fuelOut.injEq, Option.some.injEq]
      all_goals exact ⟨by omega, trivial⟩

/-- Witness for C5: with a pause of 5000 ms, the 2-second wait completes
exactly at the tick 1500 ms of unpaused time after resume, and is still
pending (1 ms left) at the tick 1499 ms after resume. -/
theorem runWait_pause_excluded_witness :
    runWait (some 2) .seconds
      [.tick 500, .pauseTick 5500, .tick 6999, .tick 7000] 0 = .completed ∧
    runWait (some 2) .seconds
      [.tick 500, .pauseTick 5500, .tick 6999] 0 = .fuelOut (some 1) 6999 := by
  have h := runWait_pause_excluded.2.2 5000 (by norm_num)
  norm_num at h
  exact h

/-- Claim C6 (code evaluated at the failing input): `runWaitUntil` does
not sanitize the step's time string — it forwards it raw (with the
`"07:00"` fallback only for the empty string), while `sanitizeTimeInput`
would have substituted the fallback.  On the malformed string
`"garbage"`, `msUntilTime` yields `NaN`, and because `NaN <= 0` is false
the executor's loop can never break on its own: for every abort-free
environment it neither completes nor aborts, so the executor does not
terminate normally. -/
theorem runWaitUntil_unsanitized_never_completes :
    waitUntilArg "garbage" = "garbage" ∧
    sanitizeTimeInput "garbage" "07:00" = "07:00" ∧
    msUntilTime "garbage" .AM 0 0 = none ∧
    (∀ (es : List TickEv) (now dayStart : Int),
      runWaitUntil "garbage" .AM now dayStart es ≠ .completed) := by
  refine ⟨rfl, by decide, by decide, ?_⟩
  intro es now dayStart
  have hrem : msUntilTime (waitUntilArg "garbage") .AM now dayStart = none := rfl
  rw [runWaitUntil, hrem]
  simp only [jsLeZero, Bool.false_eq_true, if_false]
  exact waitTickLoop_nan_not_completed es now

/-! Lemmas about the `runNotifyUntil` cycle loop. -/

theorem nuLoop_nil (id : String) (ch : List Block) (r l : Int) :
    nuLoop id ch [] r l = (.moreWork r l, []) := by
  simp [nuLoop]

theorem nuLoop_pause_eq (id : String) (ch : List Block) (es : List NuEv)
    (r l : Int) (a d : Bool) (t : Int) :
    nuLoop id ch (.pauseEv a d t :: es) r l =
      if a = true then (.aborted, [])
      else if d = true then (.dismissed, [])
      else if r ≤ 0 then (.timedOut, [])
      else nuLoop id ch es r t := by
  rw [nuLoop]
  simp only [NuEv.abortNow, NuEv.dismissedNow]

theorem nuLoop_cycle_eq (id : String) (ch : List Block) (es : List NuEv)
    (r l : Int) (a d : Bool) (cEnd : Int) (a2 d2 : Bool) :
    nuLoop id ch (.cycleEv a d cEnd a2 d2 :: es) r l =
      if a = true then (.aborted, [])
      else if d = true then (.dismissed, [])
      else if r ≤ 0 then (.timedOut, [])
      else if a2 = true then (.aborted, cycleEffects ch)
      else if d2 = true then (.dismissed, cycleEffects ch)
      else if r - (cEnd - l) ≤ 0 then (.timedOut, cycleEffects ch)
      else ((nuLoop id ch es (r - (cEnd - l)) cEnd).1,
        cycleEffects ch ++ .update id (some (max 0 (r - (cEnd - l)))) ::
          (nuLoop id ch es (r - (cEnd - l)) cEnd).2) := by
  rw [nuLoop]
  simp only [NuEv.abortNow, NuEv.dismissedNow]

theorem play_not_mem_cycleEffects (ch : List Block) (u : String) :
    NuEffect.play u ∉ cycleEffects ch := by
  unfold cycleEffects
  split_ifs <;> simp

theorem sleepE_mem_cycleEffects (ch : List Block) (d : Int) :
    NuEffect.sleepE d ∈ cycleEffects ch → d = 200 := by
  unfold cycleEffects
  split_ifs <;> simp

theorem nuLoop_no_play (id : String) (ch : List Block) (es : List NuEv) :
    ∀ (r l : Int) (u : String), NuEffect.play u ∉ (nuLoop id ch es r l).2 := by
  induction es with
  | nil => intro r l u; simp [nuLoop]
  | cons e es ih =>
    intro r l u
    cases e with
    | pauseEv a d t =>
      rw [nuLoop_pause_eq]
      split_ifs <;> first | simp | exact ih r t u
    | cycleEv a d cEnd a2 d2 =>
      rw [nuLoop_cycle_eq]
      split_ifs <;>
        first
        | exact play_not_mem_cycleEffects ch u
        | (simp only [List.mem_append, List.mem_cons, not_or]
           exact ⟨play_not_mem_cycleEffects ch u, by simp, ih _ _ u⟩)
        | simp

theorem nuLoop_sleep_200 (id : String) (ch : List Block) (es : List NuEv) :
    ∀ (r l : Int) (d : Int), NuEffect.sleepE d ∈ (nuLoop id ch es r l).2 → d = 200 := by
  induction es with
  | nil => intro r l d h; simp [nuLoop] at h
  | cons e es ih =>
    intro r l d
    cases e with
    | pauseEv a d' t =>
      rw [nuLoop_pause_eq]
      split_ifs <;> first | simp | exact ih r t d
    | cycleEv a d' cEnd a2 d2 =>
      rw [nuLoop_cycle_eq]
      split_ifs <;>
        first
        | exact sleepE_mem_cycleEffects ch d
        | (intro hmem
           simp only [List.mem_append, List.mem_cons] at hmem
           rcases hmem with hmem | hmem | hmem
           exacts [sleepE_mem_cycleEffects ch d hmem, by simp at hmem,
             ih _ _ d hmem])
        | simp

/-- Claim C3 counterexample: one non-paused cycle of a `NotifyUntil` with
a configured default sound and no children: the executor's effect trace
for the iteration is a fixed 200 ms sleep followed by the progress
report — it contains no sound playback (`play "/sounds/alarm.mp3"` would
be the claimed effect) and no `intervalSeconds` sleep (the block's 0.3 s
interval would be a 300 ms sleep). -/
theorem runNotifyUntil_cycle_no_sound_cex :
    runNotifyUntil "n1" (some 10000) none [.cycleEv false false 250 false false] 0 =
      (.moreWork 9750 250,
        [.update "n1" (some 10000), .notifSent, .sleepE 200, .update "n1" (some 9750)]) ∧
    NuEffect.play "/sounds/alarm.mp3" ∉
      [NuEffect.update "n1" (some 10000), .notifSent, .sleepE 200,
        .update "n1" (some 9750)] ∧
    NuEffect.sleepE 300 ∉
      [NuEffect.update "n1" (some 10000), .notifSent, .sleepE 200,
        .update "n1" (some 9750)] := by
  refine ⟨?_, by simp, by simp⟩
  rw [runNotifyUntil]
  simp only [Option.getD]
  rw [nuLoop_cycle_eq]
  norm_num
  rw [nuLoop_nil]
  simp [cycleEffects]

/-- Claim C3 (amended): in every non-paused, non-interrupted iteration of
the cycle loop with time still remaining, `runNotifyUntil` either runs the
nested children once (when present) or sleeps a fixed 200 ms (when
absent) — it does not play the configured sound inside the loop — then
subtracts the wall-clock time the cycle consumed from the remaining
timeout, stops if it has run out, and otherwise reports the clamped
remaining time and proceeds directly to the next cycle: there is no
`intervalSeconds` sleep anywhere (the only sleep the loop ever issues is
the fixed 200 ms one, and no environment makes it emit a sound
playback). -/
theorem runNotifyUntil_cycle_behavior :
    (∀ (id : String) (ch : List Block) (es : List NuEv) (r l e : Int), 0 < r →
      nuLoop id ch (.cycleEv false false e false false :: es) r l =
        if r - (e - l) ≤ 0 then
          (.timedOut, if ch.isEmpty then [NuEffect.sleepE 200] else [.runChildren ch])
        else
          ((nuLoop id ch es (r - (e - l)) e).1,
            (if ch.isEmpty then [NuEffect.sleepE 200] else [.runChildren ch]) ++
              .update id (some (max 0 (r - (e - l)))) ::
                (nuLoop id ch es (r - (e - l)) e).2)) ∧
    (∀ (id : String) (ch : List Block) (es : List NuEv) (r l : Int) (u : String),
      NuEffect.play u ∉ (nuLoop id ch es r l).2) ∧
    (∀ (id : String) (ch : List Block) (es : List NuEv) (r l d : Int),
      NuEffect.sleepE d ∈ (nuLoop id ch es r l).2 → d = 200) := by
  refine ⟨?_, nuLoop_no_play, nuLoop_sleep_200⟩
  intro id ch es r l e hr
  rw [nuLoop_cycle_eq]
  have hr' : ¬ r ≤ 0 := by omega
  simp only [Bool.false_eq_true, if_false, hr', cycleEffects]

/-- Witness for C3's amended theorem: a cycle consuming 400 ms of a 300 ms
remaining timeout exits with the timeout reached, after the fixed 200 ms
sleep. -/
theorem runNotifyUntil_cycle_behavior_witness :
    nuLoop "n2" [] [.cycleEv false false 400 false false] 300 0 =
      (.timedOut, [NuEffect.sleepE 200]) := by
  have h := runNotifyUntil_cycle_behavior.1 "n2" [] [] 300 0 400 (by omega)
  rw [h]
  norm_num

theorem nuLoop_clean_spec (id : String) (ch : List Block) (es : List NuEv) :
    ∀ (r l : Int), cleanNuEnv es = true → 0 < r →
    ((nuLoop id ch es r l).1 = .timedOut ∨
      ∃ r' l', (nuLoop id ch es r l).1 = .moreWork r' l' ∧
        r' = r - nuElapsed es l ∧ 0 < r') := by
  induction es with
  | nil =>
    intro r l _ hr
    rw [nuLoop_nil]
    exact Or.inr ⟨r, l, rfl, by simp [nuElapsed], hr⟩
  | cons e es ih =>
    intro r l hclean hr
    rw [cleanNuEnv, List.all_cons] at hclean
    simp only [Bool.and_eq_true] at hclean
    cases e with
    | pauseEv a d t =>
      have ha : a = false ∧ d = false := by
        have h1 := hclean.1
        simp only [NuEv.cleanFlags, Bool.and_eq_true, Bool.not_eq_true'] at h1
        exact h1
      rw [nuLoop_pause_eq, ha.1, ha.2]
      rw [if_neg (show ¬ (false = true) by simp), if_neg (show ¬ (false = true) by simp),
        if_neg (show ¬ r ≤ 0 by omega), nuElapsed]
      exact ih r t hclean.2 hr
    | cycleEv a d cEnd a2 d2 =>
      have ha : ((a = false ∧ d = false) ∧ a2 = false) ∧ d2 = false := by
        have h1 := hclean.1
        simp only [NuEv.cleanFlags, Bool.and_eq_true, Bool.not_eq_true'] at h1
        exact h1
      obtain ⟨⟨⟨ha1, ha2⟩, ha3⟩, ha4⟩ := ha
      rw [nuLoop_cycle_eq, ha1, ha2, ha3, ha4]
      rw [if_neg (show ¬ (false = true) by simp), if_neg (show ¬ (false = true) by simp),
        if_neg (show ¬ r ≤ 0 by omega), if_neg (show ¬ (false = true) by simp),
        if_neg (show ¬ (false = true) by simp)]
      by_cases hto : r - (cEnd - l) ≤ 0
      · rw [if_pos hto]
        exact Or.inl rfl
      · rw [if_neg hto]
        rcases ih (r - (cEnd - l)) cEnd hclean.2 (by omega) with hti | ⟨r', l', hm, hre, hrp⟩
        · exact Or.inl hti
        · refine Or.inr ⟨r', l', hm, ?_, hrp⟩
          rw [hre, nuElapsed]
          omega

/-- Claim C4: `runNotifyUntil` defaults an absent `timeoutMs` to 10000;
in an environment that never dismisses and never aborts, while the loop
is still driving cycles the remaining timeout equals the initial timeout
minus exactly the unpaused wall-clock time consumed so far and is still
positive — so no new cycle is driven once the cumulative unpaused time
reaches the timeout — and the only way the loop finishes in such an
environment is by timeout; on every exit (for any environment and any
reason) the executor's final effects clear the reported progress
(`updateState(id, null)`) and stop the audio. -/
theorem runNotifyUntil_timeout :
    (∀ (id : String) (ch : Option (List Block)) (es : List NuEv) (start : Int),
      runNotifyUntil id none ch es start = runNotifyUntil id (some 10000) ch es start) ∧
    (∀ (id : String) (ch : List Block) (es : List NuEv) (r l : Int),
      cleanNuEnv es = true → 0 < r →
      ((nuLoop id ch es r l).1 = .timedOut ∨
        ∃ r' l', (nuLoop id ch es r l).1 = .moreWork r' l' ∧
          r' = r - nuElapsed es l ∧ 0 < r')) ∧
    (∀ (id : String) (tm : Option Int) (ch : Option (List Block)) (es : List NuEv)
      (start : Int),
      (∀ r' l', (runNotifyUntil id tm ch es start).1 ≠ .moreWork r' l') →
      ∃ pre, (runNotifyUntil id tm ch es start).2 =
        pre ++ [.update id none, .stopAudioE]) := by
  refine ⟨fun id ch es start => rfl, nuLoop_clean_spec, ?_⟩
  intro id tm ch es start hexit
  rw [runNotifyUntil] at hexit ⊢
  simp only at hexit ⊢
  cases hres : (nuLoop id (ch.getD []) es (tm.getD 10000) start).1 with
  | moreWork r' l' => exact absurd hres (hexit r' l')
  | aborted =>
    refine ⟨.update id (some (tm.getD 10000)) :: .notifSent ::
      (nuLoop id (ch.getD []) es (tm.getD 10000) start).2, ?_⟩
    simp
  | dismissed =>
    refine ⟨.update id (some (tm.getD 10000)) :: .notifSent ::
      (nuLoop id (ch.getD []) es (tm.getD 10000) start).2, ?_⟩
    simp
  | timedOut =>
    refine ⟨.update id (some (tm.getD 10000)) :: .notifSent ::
      (nuLoop id (ch.getD []) es (tm.getD 10000) start).2, ?_⟩
    simp

/-- Witness for C4: a clean single-cycle environment consuming the whole
10-second default timeout; the loop exits by timeout, and the run's
effects end by clearing the progress report and stopping the audio. -/
theorem runNotifyUntil_timeout_witness :
    ((nuLoop "n3" [] [.cycleEv false false 10000 false false] 10000 0).1 = .timedOut ∨
      ∃ r' l', (nuLoop "n3" [] [.cycleEv false false 10000 false false] 10000 0).1 =
        .moreWork r' l' ∧ r' = 10000 - nuElapsed [.cycleEv false false 10000 false false] 0 ∧
        0 < r') ∧
    ∃ pre, (runNotifyUntil "n3" (some 10000) none
        [.cycleEv false false 10000 false false] 0).2 =
      pre ++ [.update "n3" none, .stopAudioE] := by
  constructor
  · exact runNotifyUntil_timeout.2.1 "n3" [] [.cycleEv false false 10000 false false]
      10000 0 (by decide) (by omega)
  · refine runNotifyUntil_timeout.2.2 "n3" (some 10000) none
      [.cycleEv false false 10000 false false] 0 ?_
    intro r' l'
    have hcomp : (nuLoop "n3" ((none : Option (List Block)).getD [])
        [.cycleEv false false 10000 false false] ((some (10000 : Int)).getD 10000) 0).1 =
        .timedOut := by
      rw [nuLoop_cycle_eq]
      norm_num
    rw [runNotifyUntil]
    simp only
    rw [hcomp]
    simp

/-! Lemmas about the supervisor state. -/

theorem mlook_mset_self (k : String) (v : α) : ∀ m : List (String × α),
    mlook k (mset k v m) = some v
  | [] => by simp [mset, mlook]
  | (k', v') :: rest => by
    by_cases h : k' = k
    · simp [mset, mlook, h]
    · simp [mset, mlook, h]
      exact mlook_mset_self k v rest

theorem mset_mset_self (k : String) (v1 v2 : α) : ∀ m : List (String × α),
    mset k v2 (mset k v1 m) = mset k v2 m
  | [] => by simp [mset]
  | (k', v') :: rest => by
    by_cases h : k' = k
    · simp [mset, h]
    · simp [mset, h]
      exact mset_mset_self k v1 v2 rest

/-- Claim C9: `start` on a non-stopwatch timer with a paused, non-aborted
control token resumes in place — the pause flag is cleared, every waiter
pending in `awaitResume` is released, the reported state is marked
running again — and no fresh run is begun (the action is `resumedRun`,
not `freshRun`, and no `beganRun` effect is emitted); when no paused run
exists and the timer has steps, `start` begins a fresh run over the
timer's blocks with a reset abort/pause token, marking the reported state
running. -/
theorem start_resume_or_fresh :
    (∀ (t : TimerRec) (reset : Bool) (now : Int) (s : Sup) (c : Control) (rs : RunState),
      t.mode ≠ some .simpleStopwatch →
      mlook t.id s.controls = some c → c.paused = true → c.abort = false →
      mlook t.id s.runningMap = some rs →
      start t reset now s =
        ({ s with
            controls := mset t.id { c with paused := false, waiters := 0 } s.controls
            runningMap := mset t.id { rs with isRunning := true } s.runningMap },
          [.releaseWaiters c.waiters], .resumedRun)) ∧
    (∀ (t : TimerRec) (reset : Bool) (now : Int) (s : Sup),
      t.mode ≠ some .simpleStopwatch →
      (∀ c, mlook t.id s.controls = some c → c.paused = false ∨ c.abort = true) →
      t.blocks ≠ [] →
      (start t reset now s).2.2 = .freshRun ∧
      mlook t.id (start t reset now s).1.controls = some ⟨false, false, 0⟩ ∧
      mlook t.id (start t reset now s).1.runningMap = some ⟨true, none, none⟩ ∧
      .beganRun t.id t.blocks ∈ (start t reset now s).2.1) := by
  constructor
  · intro t reset now s c rs hmode hc hp ha hrs
    simp only [start, if_neg hmode, hc, resumeBlocks, hp, ha]
    norm_num
    simp only [settlePauseWaiters, mlook_mset_self, mset_mset_self, hrs]
    exact ⟨trivial, trivial⟩
  · intro t reset now s hmode hnp hb
    have hbe : t.blocks.isEmpty = false := by
      cases hblocks : t.blocks
      · exact absurd hblocks hb
      · simp [List.isEmpty]
    have hsb : ∀ s1 : Sup,
        (startBlocks t s1).2.2 = .freshRun ∧
        mlook t.id (startBlocks t s1).1.controls = some ⟨false, false, 0⟩ ∧
        mlook t.id (startBlocks t s1).1.runningMap = some ⟨true, none, none⟩ ∧
        .beganRun t.id t.blocks ∈ (startBlocks t s1).2.1 := by
      intro s1
      simp only [startBlocks, hbe, Bool.false_eq_true, if_false, stopBlocks]
      cases hc1 : mlook t.id s1.controls with
      | none =>
        simp only [hc1, getControl, settlePauseWaiters, mlook_mset_self, mset_mset_self,
          defaultControl]
        simp [mlook_mset_self, mset_mset_self]
      | some c1 =>
        simp only [hc1, getControl, settlePauseWaiters, mlook_mset_self, mset_mset_self,
          defaultControl]
        simp [mlook_mset_self, mset_mset_self]
    simp only [start, if_neg hmode]
    cases hc : mlook t.id s.controls with
    | none =>
      simp only [hc]
      exact hsb s
    | some c =>
      simp only [hc]
      rcases hnp c hc with h | h
      · simp only [h]
        norm_num
        exact hsb s
      · simp only [h]
        norm_num
        exact hsb s

/-- Witness for C9: resuming a paused timer "t1" releases its two waiters
and marks it running again without restarting; a timer with no control
entry and a nonempty block list starts a fresh run. -/
theorem start_resume_or_fresh_witness :
    (start ⟨"t1", [Block.wait "w" (some 1) .seconds], some .alarm⟩ false 0
        ⟨[("t1", ⟨false, true, 2⟩)], [("t1", ⟨false, some "w", some 500⟩)], []⟩ =
      (⟨[("t1", ⟨false, false, 0⟩)], [("t1", ⟨true, some "w", some 500⟩)], []⟩,
        [.releaseWaiters 2], .resumedRun)) ∧
    ((start ⟨"t2", [Block.wait "w2" (some 1) .seconds], some .alarm⟩ false 0
        ⟨[], [], []⟩).2.2 = .freshRun ∧
      mlook "t2" (start ⟨"t2", [Block.wait "w2" (some 1) .seconds], some .alarm⟩ false 0
        ⟨[], [], []⟩).1.controls = some ⟨false, false, 0⟩ ∧
      mlook "t2" (start ⟨"t2", [Block.wait "w2" (some 1) .seconds], some .alarm⟩ false 0
        ⟨[], [], []⟩).1.runningMap = some ⟨true, none, none⟩ ∧
      SupEffect.beganRun "t2" [Block.wait "w2" (some 1) .seconds] ∈
        (start ⟨"t2", [Block.wait "w2" (some 1) .seconds], some .alarm⟩ false 0
          ⟨[], [], []⟩).2.1) := by
  constructor
  · have h := start_resume_or_fresh.1 ⟨"t1", [Block.wait "w" (some 1) .seconds], some .alarm⟩
      false 0 ⟨[("t1", ⟨false, true, 2⟩)], [("t1", ⟨false, some "w", some 500⟩)], []⟩
      ⟨false, true, 2⟩ ⟨false, some "w", some 500⟩
      (by simp) rfl rfl rfl rfl
    rw [h]
    rfl
  · exact start_resume_or_fresh.2 ⟨"t2", [Block.wait "w2" (some 1) .seconds], some .alarm⟩
      false 0 ⟨[], [], []⟩ (by simp) (by intro c hc; simp [mlook] at hc) (by simp)

/-- Claim C10: `start` on a sequence-mode timer with an empty blocks array
and no paused run returns with no observable effect at all: the returned
state is the input state (every timer's entry included), no effects are
emitted, and no run begins. -/
theorem start_empty_blocks_noop (t : TimerRec) (reset : Bool) (now : Int) (s : Sup)
    (hmode : t.mode ≠ some .simpleStopwatch)
    (hnp : ∀ c, mlook t.id s.controls = some c → c.paused = false ∨ c.abort = true)
    (hb : t.blocks = []) :
    start t reset now s = (s, [], .noRun) := by
  have hsb : startBlocks t s = (s, [], .noRun) := by
    simp only [startBlocks, hb]
    simp [List.isEmpty]
  simp only [start, if_neg hmode]
  cases hc : mlook t.id s.controls with
  | none => exact hsb
  | some c =>
    rcases hnp c hc with h | h
    · simp only [h]
      norm_num
      exact hsb
    · simp only [h]
      norm_num
      exact hsb

/-- Witness for C10: starting an empty sequence timer "t2" while another
timer "t3" has state leaves the whole supervisor state untouched. -/
theorem start_empty_blocks_noop_witness :
    start ⟨"t2", [], some .alarm⟩ false 0
        ⟨[("t3", ⟨false, true, 1⟩)], [("t3", ⟨false, none, none⟩)], []⟩ =
      (⟨[("t3", ⟨false, true, 1⟩)], [("t3", ⟨false, none, none⟩)], []⟩, [], .noRun) :=
  start_empty_blocks_noop ⟨"t2", [], some .alarm⟩ false 0
    ⟨[("t3", ⟨false, true, 1⟩)], [("t3", ⟨false, none, none⟩)], []⟩
    (by simp) (by intro c hc; simp [mlook] at hc) rfl

end UTimer
